import Mathlib

/-!
Verification of lambdabrot: escape-time sampler, palette builder and renderer.

A shallow embedding of `mandelbrot.go`.  `float64` values are modelled by exact
rationals (`ℚ`); Go `int` values by `Int`; `uint32` values by `Nat` reduced modulo
`2 ^ 32` wherever the source arithmetic can wrap.  The library functions
`math.Cos` and `math.Log` are parameters of the definitions that call them.

Where a statement depends on the rounding of `float64` operations, the palette builder
and the window are given a second time with a rounding applied after every operation
(`resolveLoopR`, `interpolateColorsR`, `viewWindowR`); `roundF64` is the binary64
rounding (53 significant bits, nearest, ties to even; each operation rounded on its
own, exponent range unbounded).
-/

namespace Lambdabrot

/-! ## Escape-time sampler (`mandelIteration`, mandelbrot.go 188-204) -/

/-- The `for i := 0; i < maxIter; i++` loop of `mandelIteration`.  The first argument
is the number of iterations still to run (`maxIter - i`), `i` is the loop counter and
`x`, `y` are the loop variables.  When no iteration is left the code after the loop
runs and returns `((x*x + y*y) / 2, maxIter)`. -/
def mandelLoop (cx cy : ℚ) (maxIter : Int) : Nat → Int → ℚ → ℚ → ℚ × Int
  | 0, _, x, y => ((x * x + y * y) / 2, maxIter)
  | remaining + 1, i, x, y =>
    let xy := x * y
    let xx := x * x
    let yy := y * y
    if xx + yy > 4 then (xx + yy, i)
    else mandelLoop cx cy maxIter remaining (i + 1) (xx - yy + cx) (2 * xy + cy)

/-- The function `mandelIteration(cx, cy, maxIter)`: the loop runs `maxIter` times
(not at all for `maxIter <= 0`) from `x = y = 0`, `i = 0`. -/
def mandelIteration (cx cy : ℚ) (maxIter : Int) : ℚ × Int :=
  mandelLoop cx cy maxIter maxIter.toNat 0 0 0

/-- The orbit `z_0 = 0`, `z_{n+1} = z_n ^ 2 + c` of the specification, as pairs of
real and imaginary part. -/
def orbit (cx cy : ℚ) : Nat → ℚ × ℚ
  | 0 => (0, 0)
  | n + 1 =>
    let z := orbit cx cy n
    (z.1 * z.1 - z.2 * z.2 + cx, 2 * (z.1 * z.2) + cy)

/-- Squared magnitude `|z|^2` of a point of the plane. -/
def normSq (z : ℚ × ℚ) : ℚ := z.1 * z.1 + z.2 * z.2

/-! ## Numeric conversions -/

/-- Conversion of a `float64` to a Go integer: the fraction is discarded
(truncation towards zero).  The result is not reduced to the machine range. -/
def truncInt (v : ℚ) : Int := if 0 ≤ v then ⌊v⌋ else ⌈v⌉

/-- Conversion `uint32(v)` of a `float64`: truncation towards zero, kept modulo `2 ^ 32`. -/
def toUint32 (v : ℚ) : Nat := (truncInt v % (2 ^ 32 : Int)).toNat

/-! ## Colors (`color.RGBA`, `Color`, `rgbaToUint`, `uint32ToRgba`) -/

/-- A value of Go's `color.RGBA`: the four 8-bit channels. -/
structure RGBA where
  R : Nat
  G : Nat
  B : Nat
  A : Nat
deriving DecidableEq, Repr

/-- All four channels fit in 8 bits. -/
def RGBA.WellFormed (c : RGBA) : Prop := c.R < 256 ∧ c.G < 256 ∧ c.B < 256 ∧ c.A < 256

/-- The standard library method `color.RGBA.RGBA()`: every 8-bit channel `v` is
widened to 16 bits as `v | v << 8`. -/
def RGBA.RGBA (c : RGBA) : Nat × Nat × Nat × Nat :=
  (c.R ||| (c.R <<< 8), c.G ||| (c.G <<< 8), c.B ||| (c.B <<< 8), c.A ||| (c.A <<< 8))

/-- The type `Color` of mandelbrot.go 223-226: a color stop. `Step = 0` is the
"auto" sentinel. -/
structure Color where
  Step : ℚ
  Color : RGBA

/-- The function `rgbaToUint` (mandelbrot.go 206-213); the shifts wrap at 32 bits. -/
def rgbaToUint (color : RGBA) : Nat :=
  let (r, g, b, a) := color.RGBA
  let r := r / 0xff
  let g := g / 0xff
  let b := b / 0xff
  let a := a / 0xff
  ((r <<< 24) % 2 ^ 32) ||| ((g <<< 16) % 2 ^ 32) ||| ((b <<< 8) % 2 ^ 32) ||| a

/-- The function `uint32ToRgba` (mandelbrot.go 215-221). -/
def uint32ToRgba (col : Nat) : RGBA :=
  let r := (col >>> 24) &&& 0xff
  let g := (col >>> 16) &&& 0xff
  let b := (col >>> 8) &&& 0xff
  let a := 0xff
  ⟨r % 256, g % 256, b % 256, a % 256⟩

/-- The table `lsdcolors` (mandelbrot.go 233-250): 16 stops, every `Step` left at 0. -/
def lsdcolors : List Color :=
  [ ⟨0, ⟨0x00, 0x04, 0x0f, 0xff⟩⟩, ⟨0, ⟨0x03, 0x26, 0x28, 0xff⟩⟩,
    ⟨0, ⟨0x07, 0x3e, 0x1e, 0xff⟩⟩, ⟨0, ⟨0x18, 0x55, 0x08, 0xff⟩⟩,
    ⟨0, ⟨0x5f, 0x6e, 0x0f, 0xff⟩⟩, ⟨0, ⟨0x84, 0x50, 0x19, 0xff⟩⟩,
    ⟨0, ⟨0x9b, 0x30, 0x22, 0xff⟩⟩, ⟨0, ⟨0xb4, 0x92, 0x2f, 0xff⟩⟩,
    ⟨0, ⟨0x94, 0xca, 0x3d, 0xff⟩⟩, ⟨0, ⟨0x4f, 0xd5, 0x51, 0xff⟩⟩,
    ⟨0, ⟨0x66, 0xff, 0xb3, 0xff⟩⟩, ⟨0, ⟨0x82, 0xc9, 0xe5, 0xff⟩⟩,
    ⟨0, ⟨0x9d, 0xa3, 0xeb, 0xff⟩⟩, ⟨0, ⟨0xd7, 0xb5, 0xf3, 0xff⟩⟩,
    ⟨0, ⟨0xfd, 0xd6, 0xf6, 0xff⟩⟩, ⟨0, ⟨0xff, 0xf0, 0xf2, 0xff⟩⟩ ]

/-! ## Interpolation helpers -/

/-- The function `cosineInterpolation` (mandelbrot.go 179-182).  The parameter `cosPi`
stands for the library call `mu ↦ math.Cos(mu * math.Pi)`. -/
def cosineInterpolation (cosPi : ℚ → ℚ) (c1 c2 mu : ℚ) : ℚ :=
  let mu2 := (1 - cosPi mu) / 2
  c1 * (1 - mu2) + c2 * mu2

/-- The function `linearInterpolation` (mandelbrot.go 184-186) on `uint32` values:
every operation wraps modulo `2 ^ 32`. -/
def linearInterpolation (c1 c2 mu : Nat) : Nat :=
  ((c1 * ((2 ^ 32 + 1 - mu % 2 ^ 32) % 2 ^ 32)) % 2 ^ 32 + (c2 * mu) % 2 ^ 32) % 2 ^ 32

/-- A rational stand-in for `mu ↦ cos (mu * π)` on `[0, 1]` (Bhaskara's formula), used
to instantiate the parameter `cosPi` at concrete inputs.  It is exact at `0`, `1/2`
and `1`. -/
def bhaskaraCosPi (mu : ℚ) : ℚ :=
  if mu ≤ 1 / 2 then (1 - 4 * mu ^ 2) / (1 + mu ^ 2)
  else -((1 - 4 * (1 - mu) ^ 2) / (1 + (1 - mu) ^ 2))

/-- The two-stop table of the scenario: opaque black first, opaque white second, both
with `Step` left at 0 (the second stop gets the auto step). -/
def blackWhite : List Color :=
  [ ⟨0, ⟨0x00, 0x00, 0x00, 0xff⟩⟩, ⟨0, ⟨0xff, 0xff, 0xff, 0xff⟩⟩ ]

/-! ## Palette builder (`interpolateColors`, mandelbrot.go 85-137) -/

/-- The step-resolution loop `for index, col := range lsdcolors` (lines 94-109).
`len` is `len(lsdcolors)`; `steps` and `cols` are the two slices being appended to. -/
def resolveLoop (len : Nat) : List Color → Nat → List ℚ → List Nat → List ℚ × List Nat
  | [], _, steps, cols => (steps, cols)
  | col :: rest, index, steps, cols =>
    let steps' :=
      if col.Step = 0 ∧ index ≠ 0 then
        let stepRatio : ℚ := ((index + 1 : Nat) : ℚ) / (len : ℚ)
        let step : ℚ := (truncInt (stepRatio * 100) : ℚ) / 100
        steps ++ [step]
      else
        steps ++ [col.Step]
    let (r, g, b, a) := col.Color.RGBA
    let r := r / 0xff
    let g := g / 0xff
    let b := b / 0xff
    let a := a / 0xff
    let uintColor := ((r <<< 24) % 2 ^ 32) ||| ((g <<< 16) % 2 ^ 32) ||| ((b <<< 8) % 2 ^ 32) ||| a
    resolveLoop len rest (index + 1) steps' (cols ++ [uintColor])

/-- The resolved steps after the step-resolution loop. -/
def resolveSteps (stops : List Color) : List ℚ := (resolveLoop stops.length stops 0 [] []).1

/-- The packed colors after the step-resolution loop. -/
def resolveCols (stops : List Color) : List Nat := (resolveLoop stops.length stops 0 [] []).2

/-- The value of `step` computed at lines 96-97 for the stop at position `index` of a
table of `len` stops. -/
def autoStep (len index : Nat) : ℚ :=
  (truncInt (((index + 1 : Nat) : ℚ) / (len : ℚ) * 100) : ℚ) / 100

/-- Number of indices `j < len - 1` whose bracket `steps[j] ≤ i < steps[j+1]` holds the
grid point `i`: the number of times the condition of line 115 is true at `i`. -/
def bracketCount (steps : List ℚ) (len : Nat) (i : ℚ) : Nat :=
  (List.range (len - 1)).countP
    (fun j => decide (i ≥ steps.getD j 0 ∧ i < steps.getD (j + 1) 0))

/-- The inner loop `for j := 0; j < len(lsdcolors)-1; j++` (lines 114-123) at grid
point `i`; `len` is `len(lsdcolors)`. -/
def bracketLoop (cosPi : ℚ → ℚ) (steps : List ℚ) (cols : List Nat) (len : Nat) (i : ℚ)
    (interpolated : List Nat) : List Nat :=
  (List.range (len - 1)).foldl
    (fun acc j =>
      if i ≥ steps.getD j 0 ∧ i < steps.getD (j + 1) 0 then
        let min := steps.getD j 0
        let max := steps.getD (j + 1) 0
        let minColor : ℚ := (cols.getD j 0 : ℚ)
        let maxColor : ℚ := (cols.getD (j + 1) 0 : ℚ)
        let uintColor := cosineInterpolation cosPi maxColor minColor ((i - min) / (max - min))
        acc ++ [toUint32 uintColor]
      else acc)
    interpolated

/-- The outer loop `for i := 0.0; i <= 1; i += factor` (lines 113-124).  The first
argument bounds the number of times the body may run; `none` means the loop was
still running when the bound was used up. -/
def gridLoop (cosPi : ℚ → ℚ) (steps : List ℚ) (cols : List Nat) (len : Nat) (factor : ℚ) :
    Nat → ℚ → List Nat → Option (List Nat)
  | 0, i, interpolated => if i ≤ 1 then none else some interpolated
  | fuel + 1, i, interpolated =>
    if i ≤ 1 then
      gridLoop cosPi steps cols len factor fuel (i + factor)
        (bracketLoop cosPi steps cols len i interpolated)
    else some interpolated

/-- The function `interpolateColors(numberOfColors)` for `numberOfColors ≠ 0`; the
package variable `lsdcolors` it reads is the parameter `stops`, and `fuel` bounds the
number of grid points visited (see `gridLoop`). -/
def interpolateColors (cosPi : ℚ → ℚ) (stops : List Color) (fuel : Nat)
    (numberOfColors : ℚ) : Option (List RGBA) :=
  let factor : ℚ := 1 / numberOfColors
  let (steps, cols) := resolveLoop stops.length stops 0 [] []
  let interpolated : Option (List Nat) :=
    if stops.length = steps.length ∧ stops.length = cols.length then
      gridLoop cosPi steps cols stops.length factor fuel 0 []
    else some []
  interpolated.map (fun l => l.map (fun pixelValue =>
    let r := (pixelValue >>> 24) &&& 0xff
    let g := (pixelValue >>> 16) &&& 0xff
    let b := (pixelValue >>> 8) &&& 0xff
    let a := 0xff
    (⟨r % 256, g % 256, b % 256, a % 256⟩ : RGBA)))

/-- The indices `j < len - 1` whose bracket `steps[j] ≤ i < steps[j+1]` holds the grid
point `i`, in the order in which the inner loop meets them. -/
def bracketsAt (steps : List ℚ) (len : Nat) (i : ℚ) : List Nat :=
  (List.range (len - 1)).filter
    (fun j => decide (i ≥ steps.getD j 0 ∧ i < steps.getD (j + 1) 0))

/-- The palette entry of the specification for grid point `i` and bracket `j`: the
unpacking, with alpha 255, of the truncation to `uint32` of `high*(1-mu2) + low*mu2`,
where `high` is the packed color of stop `j+1`, `low` that of stop `j`,
`mu = (i - steps[j]) / (steps[j+1] - steps[j])` and `mu2 = (1 - cos(mu π)) / 2`. -/
def blendEntry (cosPi : ℚ → ℚ) (steps : List ℚ) (cols : List Nat) (i : ℚ) (j : Nat) : RGBA :=
  let high : ℚ := (cols.getD (j + 1) 0 : ℚ)
  let low : ℚ := (cols.getD j 0 : ℚ)
  let mu : ℚ := (i - steps.getD j 0) / (steps.getD (j + 1) 0 - steps.getD j 0)
  let mu2 : ℚ := (1 - cosPi mu) / 2
  uint32ToRgba (toUint32 (high * (1 - mu2) + low * mu2))

/-- The grid points at which the body of the outer loop `for i := 0.0; i <= 1; i += factor`
runs, in order; the control of the loop is that of `gridLoop`. -/
def gridVisits (factor : ℚ) : Nat → ℚ → Option (List ℚ)
  | 0, i => if i ≤ 1 then none else some []
  | fuel + 1, i =>
    if i ≤ 1 then (gridVisits factor fuel (i + factor)).map (fun rest => i :: rest)
    else some []

/-! ## Renderer (`render`, mandelbrot.go 139-177) -/

/-- The pixel buffer of `image.NewRGBA`: `height` rows of `width` pixels. -/
abbrev Image := List (List RGBA)

/-- The zero-initialized buffer returned by `image.NewRGBA` for the rectangle
`(0,0)-(width,height)`. -/
def newRGBA (width height : Nat) : Image :=
  List.replicate height (List.replicate width ⟨0, 0, 0, 0⟩)

/-- The method `image.Set(ix, iy, c)`: a write inside the rectangle, nothing outside. -/
def Image.set (img : Image) (ix iy : Nat) (c : RGBA) : Image :=
  List.modify (fun row => List.set row ix c) iy img

/-- The pixel-to-plane map of lines 152-153, `lo + (hi-lo)*float64(i)/float64(n-1)`.
For `n - 1 = 0` the quotient is a division by zero (`NaN` or `±Inf` in Go): `none`. -/
def pixelToPlane (lo hi : ℚ) (i n : Nat) : Option ℚ :=
  if (n : Int) - 1 = 0 then none
  else some (lo + (hi - lo) * (i : ℚ) / (((n : Int) - 1 : Int) : ℚ))

/-- What the body of the pixel loop does to its pixel. `fault` stands for the cases in
which no color is computed: a palette index out of range (a run-time panic) or a
smoothed value that is not a finite number. -/
inductive PixelOutcome where
  | skip : PixelOutcome
  | write : RGBA → PixelOutcome
  | fault : PixelOutcome
deriving DecidableEq, Repr

/-- Indexing `colors[k]` with a Go `int`. -/
def indexColors (colors : List RGBA) (k : Int) : Option RGBA :=
  if k < 0 then none else colors[k.toNat]?

/-- The guarded fill of lines 157-163 for a finite smoothed value `iteration`. -/
def fillPixel (colors : List RGBA) (iteration : ℚ) : PixelOutcome :=
  if truncInt |iteration| < (colors.length : Int) - 1 then
    match indexColors colors (truncInt |iteration|),
          indexColors colors (truncInt |iteration| + 1) with
    | some color1, some color2 =>
      let color := linearInterpolation (rgbaToUint color1) (rgbaToUint color2) (toUint32 iteration)
      PixelOutcome.write (uint32ToRgba color)
    | _, _ => PixelOutcome.fault
  else PixelOutcome.skip

/-- The body of the pixel loop (lines 152-163) for pixel `(ix, iy)`.  The parameter
`log` stands for `math.Log`, giving `none` where the result is not a finite number. -/
def pixelOutcome (log : ℚ → Option ℚ) (maxIteration : Int) (colors : List RGBA)
    (xmin xmax ymin ymax : ℚ) (width height ix iy : Nat) : PixelOutcome :=
  match pixelToPlane xmin xmax ix width, pixelToPlane ymin ymax iy height with
  | some x, some y =>
    let (norm, it) := mandelIteration x y maxIteration
    match log norm with
    | some l =>
      let iteration : ℚ := ((maxIteration - it : Int) : ℚ) + l
      fillPixel colors iteration
    | none => PixelOutcome.fault
  | _, _ => PixelOutcome.fault

/-- Effect of an outcome on the buffer: a `write` reaches `image.Set` (line 162), a
`skip` leaves the buffer as it is, and after a `fault` there is no buffer to go on
with (`none`): the row task panics at line 158, or continues on a value that Go
leaves to the implementation. -/
def applyOutcome (o : PixelOutcome) (img : Image) (ix iy : Nat) : Option Image :=
  match o with
  | PixelOutcome.write c => some (img.set ix iy c)
  | PixelOutcome.skip => some img
  | PixelOutcome.fault => none

/-- One pass of the pixel loop body on the buffer. -/
def pixelStep (log : ℚ → Option ℚ) (maxIteration : Int) (colors : List RGBA)
    (xmin xmax ymin ymax : ℚ) (width height iy : Nat) (img : Image) (ix : Nat) :
    Option Image :=
  applyOutcome (pixelOutcome log maxIteration colors xmin xmax ymin ymax width height ix iy)
    img ix iy

/-- The task started for row `iy` (lines 148-165): `for ix := 0; ix < width; ix++`.
The result is `none` when a pixel of the row faults. -/
def rowTask (log : ℚ → Option ℚ) (maxIteration : Int) (colors : List RGBA)
    (xmin xmax ymin ymax : ℚ) (width height : Nat) (img : Image) (iy : Nat) : Option Image :=
  (List.range width).foldlM
    (pixelStep log maxIteration colors xmin xmax ymin ymax width height iy) img

/-- The function `render` up to `waitGroup.Wait()`, with the row tasks run in the
order in which they are started; `none` when a row task faults.  The package
variables `xpos`, `ypos`, `escapeRadius`, `width`, `height` are parameters. -/
def render (log : ℚ → Option ℚ) (xpos ypos escapeRadius : ℚ) (width height : Nat)
    (maxIteration : Int) (colors : List RGBA) : Option Image :=
  let aspect : ℚ := (height : ℚ) / (width : ℚ)
  let xmin := xpos - escapeRadius / 2
  let xmax := |xpos + escapeRadius / 2|
  let ymin := ypos - escapeRadius * aspect / 2
  let ymax := |ypos + escapeRadius * aspect / 2|
  (List.range height).foldlM
    (rowTask log maxIteration colors xmin xmax ymin ymax width height)
    (newRGBA width height)

/-- What lines 79-81 of `runBrot` do with the palette: `render` is not called, or it
faults, or it fills a buffer. -/
inductive RenderResult where
  | notCalled : RenderResult
  | faulted : RenderResult
  | filled : Image → RenderResult
deriving DecidableEq

/-- Lines 79-81 of `runBrot`: `render` is called only for a non-empty palette. -/
def renderIfColors (log : ℚ → Option ℚ) (xpos ypos escapeRadius : ℚ) (width height : Nat)
    (maxIteration : Int) (colors : List RGBA) : RenderResult :=
  if colors.length > 0 then
    match render log xpos ypos escapeRadius width height maxIteration colors with
    | some img => RenderResult.filled img
    | none => RenderResult.faulted
  else RenderResult.notCalled

/-- The function `runBrot` (lines 74-81): the palette target is raised to
`maxIteration`, the palette is built and handed to `render`. -/
def runBrot (cosPi : ℚ → ℚ) (log : ℚ → Option ℚ) (stops : List Color) (fuel : Nat)
    (colorStep xpos ypos escapeRadius : ℚ) (width height : Nat) (maxIteration : Int) :
    Option RenderResult :=
  let colorStep : ℚ := if colorStep < (maxIteration : ℚ) then (maxIteration : ℚ) else colorStep
  (interpolateColors cosPi stops fuel colorStep).map
    (renderIfColors log xpos ypos escapeRadius width height maxIteration)

/-- Whether some pixel of row `iy` faults. -/
def rowFaults (log : ℚ → Option ℚ) (maxIteration : Int) (colors : List RGBA)
    (xmin xmax ymin ymax : ℚ) (width height iy : Nat) : Bool :=
  (List.range width).any (fun ix =>
    decide (pixelOutcome log maxIteration colors xmin xmax ymin ymax width height ix iy
      = PixelOutcome.fault))

/-- A stand-in for `math.Log`, used to instantiate the parameter `log` at concrete
inputs: no finite value for arguments that are not positive (`ln 0 = -Inf`, `NaN`
below), and the rational approximation `2 (q - 1) / (q + 1)` otherwise. -/
def logStandIn (q : ℚ) : Option ℚ :=
  if q ≤ 0 then none else some (2 * (q - 1) / (q + 1))

/-- The pixel at `(ix, iy)` of the buffer, if the point lies inside it. -/
def Image.pixelAt (img : Image) (ix iy : Nat) : Option RGBA :=
  (img[iy]?).bind (fun row => row[ix]?)

/-- Effect of an outcome for pixel `ix` on the row that holds the pixel. -/
def rowSet (o : PixelOutcome) (row : List RGBA) (ix : Nat) : List RGBA :=
  match o with
  | PixelOutcome.write c => row.set ix c
  | _ => row

/-- Value of a pixel after an outcome: the written color, or else the old value. -/
def writtenValue (o : PixelOutcome) (old : RGBA) : RGBA :=
  match o with
  | PixelOutcome.write c => c
  | _ => old

/-- A six-color palette (the first six colors of `lsdcolors`) used at concrete inputs. -/
def sixColors : List RGBA :=
  [⟨0x00, 0x04, 0x0f, 0xff⟩, ⟨0x03, 0x26, 0x28, 0xff⟩, ⟨0x07, 0x3e, 0x1e, 0xff⟩,
   ⟨0x18, 0x55, 0x08, 0xff⟩, ⟨0x5f, 0x6e, 0x0f, 0xff⟩, ⟨0x84, 0x50, 0x19, 0xff⟩]

/-- The window of lines 140-142 of `render` as `(xmin, xmax, ymin, ymax)`. -/
def viewWindow (xpos ypos escapeRadius : ℚ) (width height : Nat) : ℚ × ℚ × ℚ × ℚ :=
  let aspect : ℚ := (height : ℚ) / (width : ℚ)
  (xpos - escapeRadius / 2, |xpos + escapeRadius / 2|,
   ypos - escapeRadius * aspect / 2, |ypos + escapeRadius * aspect / 2|)

/-! ## Rounded arithmetic (`float64`)

The definitions above compute with exact rationals.  The definitions of this section
repeat the palette builder and the window with every `float64` operation followed by
a rounding `rnd`: `rnd = id` is exact arithmetic, `rnd = roundF64` is binary64 with
each operation rounded on its own. -/

/-- Rounding of a rational to the nearest integer, ties to the even one. -/
def roundHalfEven (t : ℚ) : Int :=
  let f := ⌊t⌋
  if t - f < 1 / 2 then f
  else if 1 / 2 < t - f then f + 1
  else if f % 2 = 0 then f else f + 1

/-- Rounding of a positive rational to 53 significant bits, nearest with ties to
even. -/
def roundPos (q : ℚ) : ℚ :=
  let e : Int := Int.log 2 q - 52
  (roundHalfEven (q / 2 ^ e) : ℚ) * 2 ^ e

/-- The `float64` value of an operation whose exact result is `q`: rounding to 53
significant bits, nearest with ties to even.  The exponent range is not bounded
(no overflow, no subnormal numbers). -/
def roundF64 (q : ℚ) : ℚ :=
  if q = 0 then 0 else if 0 < q then roundPos q else -roundPos (-q)

/-- The value of `step` of lines 96-97 with rounded operations. -/
def autoStepR (rnd : ℚ → ℚ) (len index : Nat) : ℚ :=
  rnd ((truncInt (rnd (rnd (((index + 1 : Nat) : ℚ) / (len : ℚ)) * 100)) : ℚ) / 100)

/-- The step-resolution loop (lines 94-109) with rounded operations. -/
def resolveLoopR (rnd : ℚ → ℚ) (len : Nat) :
    List Color → Nat → List ℚ → List Nat → List ℚ × List Nat
  | [], _, steps, cols => (steps, cols)
  | col :: rest, index, steps, cols =>
    let steps' :=
      if col.Step = 0 ∧ index ≠ 0 then
        let stepRatio : ℚ := rnd (((index + 1 : Nat) : ℚ) / (len : ℚ))
        let step : ℚ := rnd ((truncInt (rnd (stepRatio * 100)) : ℚ) / 100)
        steps ++ [step]
      else
        steps ++ [col.Step]
    let (r, g, b, a) := col.Color.RGBA
    let r := r / 0xff
    let g := g / 0xff
    let b := b / 0xff
    let a := a / 0xff
    let uintColor := ((r <<< 24) % 2 ^ 32) ||| ((g <<< 16) % 2 ^ 32) ||| ((b <<< 8) % 2 ^ 32) ||| a
    resolveLoopR rnd len rest (index + 1) steps' (cols ++ [uintColor])

/-- The resolved steps with rounded operations. -/
def resolveStepsR (rnd : ℚ → ℚ) (stops : List Color) : List ℚ :=
  (resolveLoopR rnd stops.length stops 0 [] []).1

/-- The function `cosineInterpolation` with rounded operations; `cosPi mu` stands for
the `float64` result of `math.Cos(mu * math.Pi)`. -/
def cosineInterpolationR (rnd : ℚ → ℚ) (cosPi : ℚ → ℚ) (c1 c2 mu : ℚ) : ℚ :=
  let mu2 := rnd (rnd (1 - cosPi mu) / 2)
  rnd (rnd (c1 * rnd (1 - mu2)) + rnd (c2 * mu2))

/-- The inner loop (lines 114-123) with rounded operations. -/
def bracketLoopR (rnd : ℚ → ℚ) (cosPi : ℚ → ℚ) (steps : List ℚ) (cols : List Nat) (len : Nat)
    (i : ℚ) (interpolated : List Nat) : List Nat :=
  (List.range (len - 1)).foldl
    (fun acc j =>
      if i ≥ steps.getD j 0 ∧ i < steps.getD (j + 1) 0 then
        let min := steps.getD j 0
        let max := steps.getD (j + 1) 0
        let minColor : ℚ := (cols.getD j 0 : ℚ)
        let maxColor : ℚ := (cols.getD (j + 1) 0 : ℚ)
        let uintColor := cosineInterpolationR rnd cosPi maxColor minColor
          (rnd (rnd (i - min) / rnd (max - min)))
        acc ++ [toUint32 uintColor]
      else acc)
    interpolated

/-- The outer loop (lines 113-124) with the rounded update `i += factor`. -/
def gridLoopR (rnd : ℚ → ℚ) (cosPi : ℚ → ℚ) (steps : List ℚ) (cols : List Nat) (len : Nat)
    (factor : ℚ) : Nat → ℚ → List Nat → Option (List Nat)
  | 0, i, interpolated => if i ≤ 1 then none else some interpolated
  | fuel + 1, i, interpolated =>
    if i ≤ 1 then
      gridLoopR rnd cosPi steps cols len factor fuel (rnd (i + factor))
        (bracketLoopR rnd cosPi steps cols len i interpolated)
    else some interpolated

/-- The grid points at which the body of the outer loop runs, with the rounded update. -/
def gridVisitsR (rnd : ℚ → ℚ) (factor : ℚ) : Nat → ℚ → Option (List ℚ)
  | 0, i => if i ≤ 1 then none else some []
  | fuel + 1, i =>
    if i ≤ 1 then (gridVisitsR rnd factor fuel (rnd (i + factor))).map (fun rest => i :: rest)
    else some []

/-- The function `interpolateColors` with rounded operations. -/
def interpolateColorsR (rnd : ℚ → ℚ) (cosPi : ℚ → ℚ) (stops : List Color) (fuel : Nat)
    (numberOfColors : ℚ) : Option (List RGBA) :=
  let factor : ℚ := rnd (1 / numberOfColors)
  let (steps, cols) := resolveLoopR rnd stops.length stops 0 [] []
  let interpolated : Option (List Nat) :=
    if stops.length = steps.length ∧ stops.length = cols.length then
      gridLoopR rnd cosPi steps cols stops.length factor fuel 0 []
    else some []
  interpolated.map (fun l => l.map (fun pixelValue =>
    let r := (pixelValue >>> 24) &&& 0xff
    let g := (pixelValue >>> 16) &&& 0xff
    let b := (pixelValue >>> 8) &&& 0xff
    let a := 0xff
    (⟨r % 256, g % 256, b % 256, a % 256⟩ : RGBA)))

/-- The palette entry of the specification for grid point `i` and bracket `j`, with
rounded operations: the unpacking, with alpha 255, of the truncation to `uint32` of
`high*(1-mu2) + low*mu2`. -/
def blendEntryR (rnd : ℚ → ℚ) (cosPi : ℚ → ℚ) (steps : List ℚ) (cols : List Nat) (i : ℚ)
    (j : Nat) : RGBA :=
  let high : ℚ := (cols.getD (j + 1) 0 : ℚ)
  let low : ℚ := (cols.getD j 0 : ℚ)
  let mu : ℚ := rnd (rnd (i - steps.getD j 0) / rnd (steps.getD (j + 1) 0 - steps.getD j 0))
  let mu2 : ℚ := rnd (rnd (1 - cosPi mu) / 2)
  uint32ToRgba (toUint32 (rnd (rnd (high * rnd (1 - mu2)) + rnd (low * mu2))))

/-- A table of fifty stops that all carry the auto sentinel. -/
def fiftyStops : List Color := List.replicate 50 ⟨0, ⟨0x00, 0x04, 0x0f, 0xff⟩⟩

/-! ## Theorems -/

/-- Running the loop from the orbit point `z_i` when some later index `k` is the
first one with squared magnitude above 4. -/
theorem mandelLoop_escape (cx cy : ℚ) (maxIter : Int) (d : Nat) :
    ∀ (remaining i : Nat), d < remaining →
      4 < normSq (orbit cx cy (i + d)) →
      (∀ n, i ≤ n → n < i + d → ¬ 4 < normSq (orbit cx cy n)) →
      mandelLoop cx cy maxIter remaining (i : Int) (orbit cx cy i).1 (orbit cx cy i).2
        = (normSq (orbit cx cy (i + d)), ((i + d : Nat) : Int)) := by
  induction d with
  | zero =>
    intro remaining i hrem hesc _
    obtain ⟨r, rfl⟩ : ∃ r, remaining = r + 1 := ⟨remaining - 1, by omega⟩
    simp only [Nat.add_zero, normSq] at hesc ⊢
    simp only [mandelLoop]
    rw [if_pos hesc]
  | succ d ih =>
    intro remaining i hrem hesc hnot
    obtain ⟨r, rfl⟩ : ∃ r, remaining = r + 1 := ⟨remaining - 1, by omega⟩
    have h0 : ¬ 4 < normSq (orbit cx cy i) := hnot i (le_refl _) (by omega)
    simp only [normSq] at h0
    simp only [mandelLoop]
    rw [if_neg h0]
    have hstep := ih r (i + 1) (by omega)
      (by rw [show i + 1 + d = i + (d + 1) by omega]; exact hesc)
      (fun n h1 h2 => hnot n (by omega) (by omega))
    rw [show i + 1 + d = i + (d + 1) by omega] at hstep
    rw [← hstep]
    simp only [orbit, Nat.cast_add, Nat.cast_one]

/-- Running the loop from the orbit point `z_i` when no remaining index escapes. -/
theorem mandelLoop_bounded (cx cy : ℚ) (maxIter : Int) :
    ∀ (remaining i : Nat),
      (∀ n, i ≤ n → n < i + remaining → ¬ 4 < normSq (orbit cx cy n)) →
      mandelLoop cx cy maxIter remaining (i : Int) (orbit cx cy i).1 (orbit cx cy i).2
        = (normSq (orbit cx cy (i + remaining)) / 2, maxIter) := by
  intro remaining
  induction remaining with
  | zero =>
    intro i _
    simp [mandelLoop, normSq]
  | succ r ih =>
    intro i hnot
    have h0 : ¬ 4 < normSq (orbit cx cy i) := hnot i (le_refl _) (by omega)
    simp only [normSq] at h0
    simp only [mandelLoop]
    rw [if_neg h0]
    have hstep := ih (i + 1) (fun n h1 h2 => hnot n (by omega) (by omega))
    rw [show i + 1 + r = i + (r + 1) by omega] at hstep
    rw [← hstep]
    simp only [orbit, Nat.cast_add, Nat.cast_one]

/-- C1: for every point `c = (cx, cy)` and every `maxIter ≥ 0`, if `k < maxIter` is the
least index with `|z_k|^2 > 4` then `mandelIteration` returns `(|z_k|^2, k)`, and if
no index below `maxIter` has `|z_n|^2 > 4` it returns `(|z_maxIter|^2 / 2, maxIter)`. -/
theorem mandelIteration_spec (cx cy : ℚ) (maxIter : Nat) :
    (∀ k : Nat, k < maxIter → 4 < normSq (orbit cx cy k) →
        (∀ n, n < k → ¬ 4 < normSq (orbit cx cy n)) →
        mandelIteration cx cy (maxIter : Int) = (normSq (orbit cx cy k), (k : Int))) ∧
    ((∀ n, n < maxIter → ¬ 4 < normSq (orbit cx cy n)) →
        mandelIteration cx cy (maxIter : Int)
          = (normSq (orbit cx cy maxIter) / 2, (maxIter : Int))) := by
  constructor
  · intro k hk hesc hleast
    have h := mandelLoop_escape cx cy (maxIter : Int) k maxIter 0 hk
      (by simpa using hesc) (fun n _ h2 => hleast n (by omega))
    simpa [mandelIteration, orbit] using h
  · intro hnot
    have h := mandelLoop_bounded cx cy (maxIter : Int) maxIter 0
      (fun n _ h2 => hnot n (by omega))
    simpa [mandelIteration, orbit] using h

/-- Witness for `mandelIteration_spec`: `c = 2+2i` escapes at index 1, `c = 0` never. -/
theorem mandelIteration_spec_witness :
    mandelIteration 2 2 ((5 : Nat) : Int) = (normSq (orbit 2 2 1), ((1 : Nat) : Int)) ∧
    mandelIteration 0 0 ((3 : Nat) : Int) = (normSq (orbit 0 0 3) / 2, ((3 : Nat) : Int)) :=
  ⟨(mandelIteration_spec 2 2 5).1 1 (by decide) (by norm_num [orbit, normSq])
      (by intro n hn; interval_cases n; norm_num [orbit, normSq]),
   (mandelIteration_spec 0 0 3).2
      (by intro n hn; interval_cases n <;> norm_num [orbit, normSq])⟩

/-- C2 (as stated) fails: at `c = 2+2i` with `maxIteration = 5` the sampler returns
`(8, 1)`, so the iteration count is 1 and not 0; with `maxIteration = 1` it returns
`(4, 1)`, whose norm is not above 4 either. -/
theorem mandelIteration_two_two_counterexample :
    mandelIteration 2 2 5 = (8, 1) ∧ mandelIteration 2 2 1 = (4, 1) ∧
    ¬ ((mandelIteration 2 2 5).2 = 0 ∧ 4 < (mandelIteration 2 2 5).1) := by
  have h5 : mandelIteration 2 2 5 = (8, 1) := by
    norm_num [mandelIteration, mandelLoop]
  have h1 : mandelIteration 2 2 1 = (4, 1) := by
    norm_num [mandelIteration, mandelLoop]
  refine ⟨h5, h1, ?_⟩
  rw [h5]
  simp

/-- C2 (amended): for every `maxIteration ≥ 1` the sampler at `c = 2+2i` returns the
iteration count 1; for `maxIteration ≥ 2` it returns `(8, 1)` (escape on the second
magnitude check, norm above 4), and for `maxIteration = 1` it returns `(4, 1)`. -/
theorem mandelIteration_two_two (maxIteration : Int) (h : 1 ≤ maxIteration) :
    (mandelIteration 2 2 maxIteration).2 = 1 ∧
    (2 ≤ maxIteration →
      mandelIteration 2 2 maxIteration = (8, 1) ∧ 4 < (mandelIteration 2 2 maxIteration).1) ∧
    (maxIteration = 1 → mandelIteration 2 2 maxIteration = (4, 1)) := by
  have hone : mandelIteration 2 2 1 = (4, 1) := by
    norm_num [mandelIteration, mandelLoop]
  have htwo : 2 ≤ maxIteration → mandelIteration 2 2 maxIteration = (8, 1) := by
    intro h2
    obtain ⟨r, hr⟩ : ∃ r : Nat, maxIteration.toNat = r + 2 :=
      ⟨maxIteration.toNat - 2, by omega⟩
    simp only [mandelIteration, hr, mandelLoop]
    norm_num
  refine ⟨?_, ?_, ?_⟩
  · rcases eq_or_lt_of_le h with h1 | h2
    · rw [← h1, hone]
    · rw [htwo (by omega)]
  · intro h2
    rw [htwo h2]
    exact ⟨rfl, by norm_num⟩
  · intro h1
    rw [h1, hone]

/-- Witness for `mandelIteration_two_two` at `maxIteration = 800`, the default bound. -/
theorem mandelIteration_two_two_witness :
    (mandelIteration 2 2 800).2 = 1 ∧
    (2 ≤ (800 : Int) →
      mandelIteration 2 2 800 = (8, 1) ∧ 4 < (mandelIteration 2 2 800).1) ∧
    ((800 : Int) = 1 → mandelIteration 2 2 800 = (4, 1)) :=
  mandelIteration_two_two 800 (by decide)

/-- The loop started at `x = y = 0` with `c = 0` stays at the origin. -/
theorem mandelLoop_origin (maxIter : Int) :
    ∀ (remaining : Nat) (i : Int), mandelLoop 0 0 maxIter remaining i 0 0 = (0, maxIter) := by
  intro remaining
  induction remaining with
  | zero => intro i; simp [mandelLoop]
  | succ r ih => intro i; simp [mandelLoop, ih]

/-- C3: for every `maxIteration` the sampler at `c = 0` returns the iteration count
`maxIteration` together with the norm value 0. -/
theorem mandelIteration_origin (maxIteration : Int) :
    mandelIteration 0 0 maxIteration = (0, maxIteration) ∧
    (mandelIteration 0 0 maxIteration).2 = maxIteration ∧
    (mandelIteration 0 0 maxIteration).1 = 0 := by
  have h : mandelIteration 0 0 maxIteration = (0, maxIteration) :=
    mandelLoop_origin maxIteration _ _
  rw [h]
  exact ⟨rfl, rfl, rfl⟩

/-! ### Step resolution -/

/-- Truncation of a non-negative quotient of naturals is the natural quotient. -/
theorem truncInt_natCast_div (a n : Nat) :
    truncInt ((a : ℚ) / (n : ℚ)) = ((a / n : Nat) : Int) := by
  have h0 : (0 : ℚ) ≤ (a : ℚ) / (n : ℚ) := by positivity
  rw [truncInt, if_pos h0, Rat.floor_natCast_div_natCast]
  norm_cast

/-- The auto step of position `index` is `⌊100 (index + 1) / len⌋ / 100`. -/
theorem autoStep_eq (len index : Nat) :
    autoStep len index = (((100 * (index + 1) / len : Nat) : ℚ)) / 100 := by
  have h : ((index + 1 : Nat) : ℚ) / (len : ℚ) * 100
      = ((100 * (index + 1) : Nat) : ℚ) / (len : ℚ) := by
    push_cast
    ring
  rw [autoStep, h, truncInt_natCast_div, Int.cast_natCast]

/-- The steps appended by the step-resolution loop, stop by stop. -/
theorem resolveLoop_fst (len : Nat) :
    ∀ (stops : List Color) (index : Nat) (steps : List ℚ) (cols : List Nat),
      (resolveLoop len stops index steps cols).1
        = steps ++ (stops.enumFrom index).map
            (fun p => if p.2.Step = 0 ∧ p.1 ≠ 0 then autoStep len p.1 else p.2.Step) := by
  intro stops
  induction stops with
  | nil => intro index steps cols; simp [resolveLoop]
  | cons col rest ih =>
    intro index steps cols
    simp only [resolveLoop, List.enumFrom_cons, List.map_cons]
    rw [ih]
    by_cases h : col.Step = 0 ∧ index ≠ 0
    · simp [h, autoStep]
    · simp [h]

/-- The packed colors appended by the step-resolution loop, stop by stop. -/
theorem resolveLoop_snd (len : Nat) :
    ∀ (stops : List Color) (index : Nat) (steps : List ℚ) (cols : List Nat),
      (resolveLoop len stops index steps cols).2
        = cols ++ stops.map (fun c => rgbaToUint c.Color) := by
  intro stops
  induction stops with
  | nil => intro index steps cols; simp [resolveLoop]
  | cons col rest ih =>
    intro index steps cols
    simp only [resolveLoop, List.map_cons]
    rw [ih]
    simp [rgbaToUint]

/-- The resolved steps as a map over the enumerated stops. -/
theorem resolveSteps_eq (stops : List Color) :
    resolveSteps stops = (stops.enumFrom 0).map
      (fun p => if p.2.Step = 0 ∧ p.1 ≠ 0 then autoStep stops.length p.1 else p.2.Step) := by
  simp [resolveSteps, resolveLoop_fst]

/-- The packed colors as a map over the stops. -/
theorem resolveCols_eq (stops : List Color) :
    resolveCols stops = stops.map (fun c => rgbaToUint c.Color) := by
  simp [resolveCols, resolveLoop_snd]

/-- Both resolved lists have the length of the stop list. -/
theorem resolve_length (stops : List Color) :
    (resolveSteps stops).length = stops.length ∧ (resolveCols stops).length = stops.length := by
  simp [resolveSteps_eq, resolveCols_eq]

/-- The resolved steps of the default table. -/
theorem resolveSteps_lsdcolors :
    resolveSteps lsdcolors = [0, 12 / 100, 18 / 100, 25 / 100, 31 / 100, 37 / 100, 43 / 100,
      50 / 100, 56 / 100, 62 / 100, 68 / 100, 75 / 100, 81 / 100, 87 / 100, 93 / 100,
      100 / 100] := by
  simp only [resolveSteps_eq, lsdcolors, List.enumFrom_cons, List.enumFrom_nil, List.map_cons,
    List.map_nil, autoStep_eq, List.length_cons, List.length_nil]
  norm_num

/-! ### Brackets -/

/-- The inner loop appends one entry for each bracket that holds the grid point. -/
theorem bracketLoop_length (cosPi : ℚ → ℚ) (steps : List ℚ) (cols : List Nat) (len : Nat)
    (i : ℚ) (interpolated : List Nat) :
    (bracketLoop cosPi steps cols len i interpolated).length
      = interpolated.length + bracketCount steps len i := by
  unfold bracketLoop bracketCount
  generalize List.range (len - 1) = l
  induction l generalizing interpolated with
  | nil => simp
  | cons j rest ih =>
    simp only [List.foldl_cons]
    rw [ih, List.countP_cons]
    by_cases h : i ≥ steps.getD j 0 ∧ i < steps.getD (j + 1) 0
    · rw [if_pos h, if_pos (decide_eq_true h), List.length_append, List.length_singleton]
      omega
    · rw [if_neg h, if_neg (by simpa using h)]
      omega

/-- Dropping the first step shifts the bracket indices by one. -/
theorem bracketCount_cons (a b : ℚ) (t : List ℚ) (i : ℚ) :
    bracketCount (a :: b :: t) (a :: b :: t).length i
      = (if i ≥ a ∧ i < b then 1 else 0) + bracketCount (b :: t) (b :: t).length i := by
  unfold bracketCount
  simp only [List.length_cons, Nat.add_sub_cancel]
  rw [List.range_succ_eq_map, List.countP_cons, List.countP_map]
  simp only [List.getD_cons_zero, List.getD_cons_succ, zero_add]
  rw [Nat.add_comm]
  congr 1
  simp only [decide_eq_true_eq]

/-- For non-decreasing steps a grid point lies in exactly one bracket when it is in
`[first, last)` and in none otherwise. -/
theorem bracketCount_sorted (steps : List ℚ) (hs : steps.Pairwise (· ≤ ·)) (hne : steps ≠ [])
    (i : ℚ) :
    bracketCount steps steps.length i
      = if steps.getD 0 0 ≤ i ∧ i < steps.getD (steps.length - 1) 0 then 1 else 0 := by
  induction steps with
  | nil => exact absurd rfl hne
  | cons a rest ih =>
    cases rest with
    | nil =>
      have h : ¬ (a ≤ i ∧ i < a) := fun h => absurd h.2 (not_lt.mpr h.1)
      simp [bracketCount, h]
    | cons b t =>
      rw [bracketCount_cons, ih (List.Pairwise.of_cons hs) (by simp)]
      have hab : a ≤ b := (List.pairwise_cons.mp hs).1 b (by simp)
      have hlast : (b :: t).getD ((b :: t).length - 1) 0 = (a :: b :: t).getD ((a :: b :: t).length - 1) 0 := by
        simp
      have hbl : b ≤ (b :: t).getD ((b :: t).length - 1) 0 := by
        cases t with
        | nil => simp
        | cons c u =>
          have hmem : (c :: u).getD ((c :: u).length - 1) 0 ∈ (c :: u) := by
            rw [List.getD_eq_getElem _ _ (by simp)]
            exact List.getElem_mem _
          have := (List.pairwise_cons.mp (List.Pairwise.of_cons hs)).1 _ hmem
          simpa using this
      rw [← hlast]
      simp only [List.getD_cons_zero]
      generalize (b :: t).getD ((b :: t).length - 1) 0 = last at hbl ⊢
      by_cases h1 : i ≥ a ∧ i < b
      · have h2 : ¬ (b ≤ i ∧ i < last) := fun h => absurd h.1 (not_le.mpr h1.2)
        have h3 : a ≤ i ∧ i < last := ⟨h1.1, lt_of_lt_of_le h1.2 hbl⟩
        simp [h1, h2, h3]
      · by_cases h2 : b ≤ i ∧ i < last
        · have h3 : a ≤ i ∧ i < last := ⟨le_trans hab h2.1, h2.2⟩
          simp [h1, h2, h3]
        · have h3 : ¬ (a ≤ i ∧ i < last) := by
            intro h
            by_cases hb : b ≤ i
            · exact h2 ⟨hb, h.2⟩
            · exact h1 ⟨h.1, not_le.mp hb⟩
          simp [h1, h2, h3]

/-! ### The grid loop -/

/-- Once the grid point is beyond 1 the loop is left, whatever bound remains. -/
theorem gridLoop_exit (cosPi : ℚ → ℚ) (steps : List ℚ) (cols : List Nat) (len : Nat)
    (factor : ℚ) (fuel : Nat) (i : ℚ) (interpolated : List Nat) (hi : ¬ i ≤ 1) :
    gridLoop cosPi steps cols len factor fuel i interpolated = some interpolated := by
  cases fuel with
  | zero => simp [gridLoop, hi]
  | succ f => simp [gridLoop, hi]

/-- One pass of the loop body at a grid point `i ≤ 1`. -/
theorem gridLoop_step (cosPi : ℚ → ℚ) (steps : List ℚ) (cols : List Nat) (len : Nat)
    (factor : ℚ) (fuel : Nat) (i : ℚ) (interpolated : List Nat) (hi : i ≤ 1) :
    gridLoop cosPi steps cols len factor (fuel + 1) i interpolated
      = gridLoop cosPi steps cols len factor fuel (i + factor)
          (bracketLoop cosPi steps cols len i interpolated) := by
  simp [gridLoop, hi]

/-- The grid loop for `factor = 1/N`, `N > 0`, started at the grid point `k/N`, when
every grid point below 1 lies in exactly one bracket and the grid point 1 in none:
with a bound of at least `⌊N⌋ + 1 - k` passes it ends and has appended one entry for
each `k ≤ k' < N`. -/
theorem gridLoop_length (cosPi : ℚ → ℚ) (steps : List ℚ) (cols : List Nat) (len : Nat)
    (N : ℚ) (hN : 0 < N)
    (hB : ∀ i : ℚ, 0 ≤ i → i ≤ 1 → bracketCount steps len i = if i < 1 then 1 else 0) :
    ∀ (fuel k : Nat) (acc : List Nat), ⌊N⌋₊ + 1 ≤ k + fuel → k ≤ ⌊N⌋₊ + 1 →
      ∃ out, gridLoop cosPi steps cols len (1 / N) fuel ((k : ℚ) * (1 / N)) acc = some out ∧
        out.length = acc.length + (⌈N⌉₊ - k) := by
  have hceil : ⌈N⌉₊ ≤ ⌊N⌋₊ + 1 := Nat.ceil_le_floor_add_one N
  have hpast : ∀ k : Nat, ⌊N⌋₊ + 1 ≤ k → ¬ (k : ℚ) * (1 / N) ≤ 1 := by
    intro k hk hle
    have h1 : N < (⌊N⌋₊ : ℚ) + 1 := Nat.lt_floor_add_one N
    have h2 : ((⌊N⌋₊ + 1 : Nat) : ℚ) ≤ (k : ℚ) := by exact_mod_cast hk
    have h3 : (k : ℚ) ≤ N := by
      rw [mul_one_div, div_le_one hN] at hle
      exact hle
    push_cast at h2
    linarith
  intro fuel
  induction fuel with
  | zero =>
    intro k acc h1 h2
    refine ⟨acc, gridLoop_exit _ _ _ _ _ _ _ _ (hpast k (by omega)), ?_⟩
    omega
  | succ f ih =>
    intro k acc h1 h2
    by_cases hk : k ≤ ⌊N⌋₊
    · have hkN : (k : ℚ) ≤ N := (Nat.le_floor_iff (le_of_lt hN)).mp hk
      have hi1 : (k : ℚ) * (1 / N) ≤ 1 := by
        rw [mul_one_div, div_le_one hN]
        exact hkN
      have hi0 : (0 : ℚ) ≤ (k : ℚ) * (1 / N) := by positivity
      have hnext : (k : ℚ) * (1 / N) + 1 / N = ((k + 1 : Nat) : ℚ) * (1 / N) := by
        push_cast
        ring
      rw [gridLoop_step _ _ _ _ _ _ _ _ hi1, hnext]
      obtain ⟨out, hout, hlen⟩ :=
        ih (k + 1) (bracketLoop cosPi steps cols len ((k : ℚ) * (1 / N)) acc)
          (by omega) (by omega)
      refine ⟨out, hout, ?_⟩
      rw [hlen, bracketLoop_length, hB _ hi0 hi1]
      by_cases hlt : (k : ℚ) * (1 / N) < 1
      · have hkc : k < ⌈N⌉₊ := by
          rw [Nat.lt_ceil]
          rw [mul_one_div, div_lt_one hN] at hlt
          exact hlt
        rw [if_pos hlt]
        omega
      · have hkc : ¬ k < ⌈N⌉₊ := by
          rw [Nat.lt_ceil]
          intro h
          apply hlt
          rw [mul_one_div, div_lt_one hN]
          exact h
        rw [if_neg hlt]
        omega
    · refine ⟨acc, gridLoop_exit _ _ _ _ _ _ _ _ (hpast k (by omega)), ?_⟩
      omega

/-- The palette builder in terms of the resolved lists: the length check of line 112
always passes, and the final loop unpacks every interpolated value. -/
theorem interpolateColors_eq (cosPi : ℚ → ℚ) (stops : List Color) (fuel : Nat) (N : ℚ) :
    interpolateColors cosPi stops fuel N
      = (gridLoop cosPi (resolveSteps stops) (resolveCols stops) stops.length (1 / N) fuel 0
          []).map (List.map uint32ToRgba) := by
  have h1 := (resolve_length stops).1
  have h2 := (resolve_length stops).2
  unfold resolveSteps at h1
  unfold resolveCols at h2
  unfold interpolateColors resolveSteps resolveCols
  simp only [h1, h2, and_self, if_true]
  rfl

/-- In the default table every grid point of `[0, 1)` lies in exactly one bracket and
the grid point 1 in none. -/
theorem bracketCount_lsdcolors (i : ℚ) (h0 : 0 ≤ i) (_h1 : i ≤ 1) :
    bracketCount (resolveSteps lsdcolors) lsdcolors.length i = if i < 1 then 1 else 0 := by
  have hlen : lsdcolors.length = (resolveSteps lsdcolors).length := (resolve_length _).1.symm
  rw [hlen, bracketCount_sorted _ _ _ i]
  · rw [resolveSteps_lsdcolors]
    simp [h0]
  · rw [resolveSteps_lsdcolors]
    simp only [List.pairwise_cons, List.mem_cons, List.mem_singleton, forall_eq_or_imp,
      forall_eq, List.not_mem_nil, List.Pairwise.nil]
    norm_num
  · rw [resolveSteps_lsdcolors]
    simp

/-- Length of the palette built from the default table: for `N > 0` and a bound of
at least `⌊N⌋ + 1` grid points the builder returns `⌈N⌉` colors. -/
theorem interpolateColors_lsdcolors_length (cosPi : ℚ → ℚ) (N : ℚ) (hN : 0 < N) (fuel : Nat)
    (hfuel : ⌊N⌋₊ + 1 ≤ fuel) :
    ∃ palette, interpolateColors cosPi lsdcolors fuel N = some palette ∧
      palette.length = ⌈N⌉₊ := by
  obtain ⟨out, hout, hlen⟩ :=
    gridLoop_length cosPi (resolveSteps lsdcolors) (resolveCols lsdcolors) lsdcolors.length N hN
      (fun i h0 h1 => bracketCount_lsdcolors i h0 h1) fuel 0 [] (by omega) (by omega)
  rw [Nat.cast_zero, zero_mul] at hout
  refine ⟨out.map uint32ToRgba, ?_, ?_⟩
  · rw [interpolateColors_eq, hout]
    rfl
  · rw [List.length_map, hlen]
    simp

/-- C4 (as stated) fails: for the default table and `N = 4` the grid is
`0, 1/4, 1/2, 3/4, 1`, the grid point 1 lies in no bracket, and the palette has 4
entries, not `floor(4) + 1 = 5`. -/
theorem interpolateColors_length_counterexample :
    (interpolateColors bhaskaraCosPi lsdcolors 5 4).map List.length = some 4 ∧
    (interpolateColors bhaskaraCosPi lsdcolors 5 4).map List.length ≠ some (⌊(4 : ℚ)⌋₊ + 1) := by
  obtain ⟨palette, hp, hlen⟩ :=
    interpolateColors_lsdcolors_length bhaskaraCosPi 4 (by norm_num) 5 (by simp)
  have h4 : ⌈(4 : ℚ)⌉₊ = 4 := by simp
  rw [hp, Option.map_some', hlen, h4]
  simp

/-! ### The two-stop scenario -/

/-- Resolved steps of the two-stop table. -/
theorem resolveSteps_blackWhite : resolveSteps blackWhite = [0, 1] := by
  simp only [resolveSteps_eq, blackWhite, List.enumFrom_cons, List.enumFrom_nil, List.map_cons,
    List.map_nil, autoStep_eq, List.length_cons, List.length_nil]
  norm_num

/-- Packed colors of the two-stop table. -/
theorem resolveCols_blackWhite :
    resolveCols blackWhite
      = [rgbaToUint ⟨0x00, 0x00, 0x00, 0xff⟩, rgbaToUint ⟨0xff, 0xff, 0xff, 0xff⟩] := by
  simp [resolveCols_eq, blackWhite]

/-- The inner loop of a two-stop table with steps `0` and `1`. -/
theorem bracketLoop_two (cosPi : ℚ → ℚ) (lo hi : Nat) (i : ℚ) (acc : List Nat) :
    bracketLoop cosPi [0, 1] [lo, hi] 2 i acc
      = if 0 ≤ i ∧ i < 1 then
          acc ++ [toUint32 (cosineInterpolation cosPi (hi : ℚ) (lo : ℚ) ((i - 0) / (1 - 0)))]
        else acc := by
  simp [bracketLoop, List.range_succ]

/-- The interpolated values of the two-stop scenario with `N = 4`. -/
theorem gridLoop_blackWhite (cosPi : ℚ → ℚ) (lo hi : Nat) (fuel : Nat) (hfuel : 5 ≤ fuel) :
    gridLoop cosPi [0, 1] [lo, hi] 2 (1 / 4) fuel 0 []
      = some [toUint32 (cosineInterpolation cosPi (hi : ℚ) (lo : ℚ) 0),
              toUint32 (cosineInterpolation cosPi (hi : ℚ) (lo : ℚ) (1 / 4)),
              toUint32 (cosineInterpolation cosPi (hi : ℚ) (lo : ℚ) (1 / 2)),
              toUint32 (cosineInterpolation cosPi (hi : ℚ) (lo : ℚ) (3 / 4))] := by
  obtain ⟨r, rfl⟩ : ∃ r, fuel = r + 1 + 1 + 1 + 1 + 1 := ⟨fuel - 5, by omega⟩
  rw [gridLoop_step _ _ _ _ _ _ _ _ (by norm_num), gridLoop_step _ _ _ _ _ _ _ _ (by norm_num),
    gridLoop_step _ _ _ _ _ _ _ _ (by norm_num), gridLoop_step _ _ _ _ _ _ _ _ (by norm_num),
    gridLoop_step _ _ _ _ _ _ _ _ (by norm_num), gridLoop_exit _ _ _ _ _ _ _ _ (by norm_num)]
  simp only [bracketLoop_two]
  norm_num

/-- An integer-valued packed color is converted to `uint32` unchanged. -/
theorem toUint32_natCast (n : Nat) (hn : n < 2 ^ 32) : toUint32 (n : ℚ) = n := by
  have h0 : (0 : ℚ) ≤ (n : ℚ) := Nat.cast_nonneg n
  rw [toUint32, truncInt, if_pos h0, Int.floor_natCast]
  omega

/-- At `mu = 0` the cosine interpolation returns its first argument. -/
theorem cosineInterpolation_zero (cosPi : ℚ → ℚ) (h0 : cosPi 0 = 1) (c1 c2 : ℚ) :
    cosineInterpolation cosPi c1 c2 0 = c1 := by
  simp [cosineInterpolation, h0]

/-- The palette of the two-stop scenario: four entries, the first one unpacked from
the packed value of the white stop. -/
theorem interpolateColors_blackWhite (cosPi : ℚ → ℚ) (h0 : cosPi 0 = 1) (fuel : Nat)
    (hfuel : 5 ≤ fuel) :
    ∃ palette, interpolateColors cosPi blackWhite fuel 4 = some palette ∧
      palette.length = 4 ∧
      palette[0]? = some (uint32ToRgba (rgbaToUint ⟨0xff, 0xff, 0xff, 0xff⟩)) ∧
      palette[4]? = none := by
  have hw : rgbaToUint ⟨0xff, 0xff, 0xff, 0xff⟩ < 2 ^ 32 := by decide
  rw [interpolateColors_eq, resolveSteps_blackWhite, resolveCols_blackWhite]
  have hlen : blackWhite.length = 2 := rfl
  rw [hlen, gridLoop_blackWhite cosPi _ _ fuel hfuel, cosineInterpolation_zero cosPi h0,
    toUint32_natCast _ hw]
  exact ⟨_, rfl, rfl, rfl, rfl⟩

/-- C5 (as stated) fails: with the two stops black, white and `N = 4` the palette has
4 entries, its first entry is `(1, 1, 1, 255)` (unpacked from the packed white stop)
and not black, and there is no entry 4. -/
theorem interpolateColors_blackWhite_counterexample :
    (interpolateColors bhaskaraCosPi blackWhite 5 4).map List.length = some 4 ∧
    (interpolateColors bhaskaraCosPi blackWhite 5 4).map (fun p => p[0]?)
      = some (some ⟨1, 1, 1, 255⟩) ∧
    (interpolateColors bhaskaraCosPi blackWhite 5 4).map (fun p => p[4]?) = some none ∧
    ¬ ((interpolateColors bhaskaraCosPi blackWhite 5 4).map List.length = some 5 ∧
       (interpolateColors bhaskaraCosPi blackWhite 5 4).map (fun p => p[0]?)
          = some (some ⟨0, 0, 0, 255⟩) ∧
       (interpolateColors bhaskaraCosPi blackWhite 5 4).map (fun p => p[4]?)
          = some (some ⟨255, 255, 255, 255⟩)) := by
  obtain ⟨palette, hp, hlen, hfirst, hlast⟩ :=
    interpolateColors_blackWhite bhaskaraCosPi (by norm_num [bhaskaraCosPi]) 5 (le_refl 5)
  have hval : uint32ToRgba (rgbaToUint ⟨0xff, 0xff, 0xff, 0xff⟩) = ⟨1, 1, 1, 255⟩ := by decide
  rw [hp]
  simp only [Option.map_some', hlen, hfirst, hlast, hval]
  simp

/-- C5 (amended): with the two stops black, white (auto step) and `N = 4`, for every
cosine with `cos 0 = 1` and room for the 5 grid points, the palette has exactly 4
entries (grid points `0, 1/4, 1/2, 3/4`; the grid point 1 lies in no bracket, so there
is no entry 4), and entry 0 is the unpacking of the packed value of the second
(white) stop. -/
theorem interpolateColors_scenario (cosPi : ℚ → ℚ) (h0 : cosPi 0 = 1) (fuel : Nat)
    (hfuel : 5 ≤ fuel) :
    ∃ palette, interpolateColors cosPi blackWhite fuel 4 = some palette ∧
      palette.length = 4 ∧
      palette[0]? = some (uint32ToRgba (rgbaToUint ⟨0xff, 0xff, 0xff, 0xff⟩)) ∧
      palette[4]? = none :=
  interpolateColors_blackWhite cosPi h0 fuel hfuel

/-- Witness for `interpolateColors_scenario` with Bhaskara's cosine and a bound of 5. -/
theorem interpolateColors_scenario_witness :
    ∃ palette, interpolateColors bhaskaraCosPi blackWhite 5 4 = some palette ∧
      palette.length = 4 ∧
      palette[0]? = some (uint32ToRgba (rgbaToUint ⟨0xff, 0xff, 0xff, 0xff⟩)) ∧
      palette[4]? = none :=
  interpolateColors_scenario bhaskaraCosPi (by norm_num [bhaskaraCosPi]) 5 (le_refl 5)

/-! ### First stop and auto steps -/

/-- The resolved step of the first stop is the `Step` the stop carries. -/
theorem resolveSteps_head (c : Color) (rest : List Color) :
    (resolveSteps (c :: rest))[0]? = some c.Step := by
  simp [resolveSteps_eq]

/-- C6 (as stated) fails: a single stop carrying `Step = 1/2` keeps the resolved
step `1/2`, not 0. -/
theorem resolveSteps_first_counterexample :
    resolveSteps [⟨1 / 2, ⟨0x00, 0x04, 0x0f, 0xff⟩⟩] = [1 / 2] ∧
    (resolveSteps [⟨1 / 2, ⟨0x00, 0x04, 0x0f, 0xff⟩⟩])[0]? ≠ some 0 := by
  have h : resolveSteps [⟨1 / 2, ⟨0x00, 0x04, 0x0f, 0xff⟩⟩] = [1 / 2] := by
    simp [resolveSteps_eq]
  rw [h]
  exact ⟨rfl, by norm_num⟩

/-- C6 (amended): for every non-empty stop list the resolved step of the first stop is
exactly the `Step` value that stop carries; it is 0 exactly when the first stop
carries `Step = 0`, as every stop of the default table does. -/
theorem resolveSteps_first (c : Color) (rest : List Color) :
    (resolveSteps (c :: rest))[0]? = some c.Step ∧
    ((resolveSteps (c :: rest))[0]? = some 0 ↔ c.Step = 0) ∧
    (resolveSteps lsdcolors)[0]? = some 0 := by
  refine ⟨resolveSteps_head c rest, ?_, ?_⟩
  · rw [resolveSteps_head]
    simp
  · rw [resolveSteps_lsdcolors]
    rfl

/-- The auto step in the form of the specification. -/
theorem autoStep_floor (len index : Nat) :
    autoStep len index = ((⌊(100 * ((index : ℚ) + 1)) / (len : ℚ)⌋ : Int) : ℚ) / 100 := by
  have h : (100 * ((index : ℚ) + 1)) / (len : ℚ) = ((100 * (index + 1) : Nat) : ℚ) / (len : ℚ) := by
    push_cast
    ring
  rw [autoStep_eq, h, Rat.floor_natCast_div_natCast, ← Int.natCast_div, Int.cast_natCast]

/-- Auto steps do not decrease with the position. -/
theorem autoStep_mono (len : Nat) {j k : Nat} (h : j ≤ k) : autoStep len j ≤ autoStep len k := by
  rw [autoStep_eq, autoStep_eq]
  have hdiv : 100 * (j + 1) / len ≤ 100 * (k + 1) / len :=
    Nat.div_le_div_right (by omega)
  have hq : ((100 * (j + 1) / len : Nat) : ℚ) ≤ ((100 * (k + 1) / len : Nat) : ℚ) := by
    exact_mod_cast hdiv
  linarith

/-- Auto steps are non-negative. -/
theorem autoStep_nonneg (len index : Nat) : 0 ≤ autoStep len index := by
  rw [autoStep_eq]
  positivity

/-- Steps appended for a run of stops that all carry the auto sentinel. -/
theorem map_enumFrom_auto (len : Nat) :
    ∀ (stops : List Color) (index : Nat), (∀ c ∈ stops, c.Step = 0) →
      (stops.enumFrom index).map
          (fun p => if p.2.Step = 0 ∧ p.1 ≠ 0 then autoStep len p.1 else p.2.Step)
        = (List.range' index stops.length).map
            (fun k => if k = 0 then 0 else autoStep len k) := by
  intro stops
  induction stops with
  | nil => intro index _; simp
  | cons c rest ih =>
    intro index hauto
    have hc : c.Step = 0 := hauto c (by simp)
    have hrest : ∀ d ∈ rest, d.Step = 0 := fun d hd => hauto d (by simp [hd])
    rw [List.enumFrom_cons, List.map_cons, ih (index + 1) hrest, List.length_cons,
      List.range'_succ, List.map_cons]
    by_cases h0 : index = 0
    · simp [h0, hc]
    · simp [h0, hc]

/-- The resolved steps of a table whose stops all carry the auto sentinel. -/
theorem resolveSteps_of_auto (stops : List Color) (hauto : ∀ c ∈ stops, c.Step = 0) :
    resolveSteps stops
      = (List.range stops.length).map
          (fun k => if k = 0 then 0 else autoStep stops.length k) := by
  rw [resolveSteps_eq, map_enumFrom_auto _ _ _ hauto, List.range_eq_range']

/-! ### Renderer -/

/-- C8 (as stated) fails: for a viewport of width 1 the divisor `width - 1` is zero, so
pixel 0 (which is also pixel `width - 1`) has no defined plane coordinate; it is
mapped neither to `xmin` nor to `xmax`. -/
theorem pixelToPlane_counterexample :
    pixelToPlane (-1) 1 0 1 = none ∧
    pixelToPlane (-1) 1 (1 - 1) 1 ≠ some 1 ∧ pixelToPlane (-1) 1 0 1 ≠ some (-1) := by
  have h : pixelToPlane (-1) 1 0 1 = none := by simp [pixelToPlane]
  have h' : pixelToPlane (-1) 1 (1 - 1) 1 = none := h
  rw [h']
  simp

/-- C8 (amended): for every viewport with `width ≥ 2` and `height ≥ 2` the
pixel-to-plane mapping of `render` sends pixel `(0, 0)` to exactly `(xmin, ymin)` and
pixel `(width-1, height-1)` to exactly `(xmax, ymax)`. -/
theorem pixelToPlane_corners (xmin xmax ymin ymax : ℚ) (width height : Nat)
    (hw : 2 ≤ width) (hh : 2 ≤ height) :
    pixelToPlane xmin xmax 0 width = some xmin ∧
    pixelToPlane ymin ymax 0 height = some ymin ∧
    pixelToPlane xmin xmax (width - 1) width = some xmax ∧
    pixelToPlane ymin ymax (height - 1) height = some ymax := by
  have key : ∀ (lo hi : ℚ) (n : Nat), 2 ≤ n →
      pixelToPlane lo hi 0 n = some lo ∧ pixelToPlane lo hi (n - 1) n = some hi := by
    intro lo hi n hn
    have hne : ¬ ((n : Int) - 1 = 0) := by omega
    have hq : (((n : Int) - 1 : Int) : ℚ) ≠ 0 := by exact_mod_cast hne
    have hcast : ((n - 1 : Nat) : ℚ) = (((n : Int) - 1 : Int) : ℚ) := by
      have h1 : ((n - 1 : Nat) : Int) = (n : Int) - 1 := by omega
      rw [← h1, Int.cast_natCast]
    constructor
    · simp [pixelToPlane, hne]
    · rw [pixelToPlane, if_neg hne, hcast, mul_div_assoc, div_self hq]
      congr 1
      ring
  exact ⟨(key xmin xmax width hw).1, (key ymin ymax height hh).1,
    (key xmin xmax width hw).2, (key ymin ymax height hh).2⟩

/-- Witness for `pixelToPlane_corners` at a 4 x 4 viewport. -/
theorem pixelToPlane_corners_witness :
    pixelToPlane (-1) 1 0 4 = some (-1) ∧
    pixelToPlane (-2) 2 0 4 = some (-2) ∧
    pixelToPlane (-1) 1 (4 - 1) 4 = some 1 ∧
    pixelToPlane (-2) 2 (4 - 1) 4 = some 2 :=
  pixelToPlane_corners (-1) 1 (-2) 2 4 4 (by decide) (by decide)

/-- The integer conversion of an absolute value is its floor, and it is not negative. -/
theorem truncInt_abs (s : ℚ) : truncInt |s| = ⌊|s|⌋ ∧ 0 ≤ truncInt |s| := by
  have h0 : (0 : ℚ) ≤ |s| := abs_nonneg s
  rw [truncInt, if_pos h0]
  exact ⟨rfl, Int.floor_nonneg.mpr h0⟩

/-- C11 (the code at the failing input): for opaque black `(0, 0, 0, 255)` the packing
of `rgbaToUint`, which is also the packing inside `interpolateColors`, gives `0x101`
and not `0 << 24 | 0 << 16 | 0 << 8 | 255 = 0xff`, and unpacking it gives
`(0, 0, 1, 255)`, not the color packed. -/
theorem rgbaToUint_black :
    rgbaToUint ⟨0, 0, 0, 255⟩ = 0x101 ∧
    resolveCols [⟨0, ⟨0, 0, 0, 255⟩⟩] = [0x101] ∧
    rgbaToUint ⟨0, 0, 0, 255⟩ ≠ ((0 <<< 24) ||| (0 <<< 16) ||| (0 <<< 8) ||| 255) ∧
    uint32ToRgba (rgbaToUint ⟨0, 0, 0, 255⟩) = ⟨0, 0, 1, 255⟩ ∧
    uint32ToRgba (rgbaToUint ⟨0, 0, 0, 255⟩) ≠ ⟨0, 0, 0, 255⟩ := by
  refine ⟨by decide, ?_, by decide, by decide, by decide⟩
  rw [resolveCols_eq]
  decide

/-! ### The window -/

/-- Wrap-around arithmetic modulo `M`: `c1 (1 - mu) + c2 mu`, computed with every
operation reduced modulo `M`, is `c1 + mu (c2 - c1)` modulo `M`. -/
theorem wrap_blend (M c1 c2 mu : Nat) (hM : 0 < M) :
    ((((c1 * ((M + 1 - mu % M) % M)) % M + (c2 * mu) % M) % M : Nat) : Int)
      = ((c1 : Int) + (mu : Int) * ((c2 : Int) - (c1 : Int))) % (M : Int) := by
  have hle : mu % M ≤ M + 1 := le_trans (le_of_lt (Nat.mod_lt _ hM)) (Nat.le_succ M)
  have hz : ((((c1 * ((M + 1 - mu % M) % M)) % M + (c2 * mu) % M) % M : Nat) : ZMod M)
      = (((c1 : Int) + (mu : Int) * ((c2 : Int) - (c1 : Int)) : Int) : ZMod M) := by
    simp only [ZMod.natCast_mod, Nat.cast_add, Nat.cast_mul, Nat.cast_sub hle,
      ZMod.natCast_self, Nat.cast_one, Int.cast_add, Int.cast_mul, Int.cast_sub,
      Int.cast_natCast]
    ring
  have hz' : (((((c1 * ((M + 1 - mu % M) % M)) % M + (c2 * mu) % M) % M : Nat) : Int) : ZMod M)
      = (((c1 : Int) + (mu : Int) * ((c2 : Int) - (c1 : Int)) : Int) : ZMod M) := by
    rw [Int.cast_natCast]
    exact hz
  have hmod := (ZMod.intCast_eq_intCast_iff _ _ M).mp hz'
  have hlt : ((c1 * ((M + 1 - mu % M) % M)) % M + (c2 * mu) % M) % M < M := Nat.mod_lt _ hM
  rw [← hmod.eq]
  exact (Int.emod_eq_of_lt (Int.natCast_nonneg _) (by exact_mod_cast hlt)).symm

/-- The 32-bit result of `linearInterpolation` is `c1 + mu (c2 - c1)` modulo `2 ^ 32`. -/
theorem linearInterpolation_emod (c1 c2 mu : Nat) :
    ((linearInterpolation c1 c2 mu : Nat) : Int)
      = ((c1 : Int) + (mu : Int) * ((c2 : Int) - (c1 : Int))) % 2 ^ 32 := by
  have h := wrap_blend (2 ^ 32) c1 c2 mu (by norm_num)
  have hcast : ((2 ^ 32 : Nat) : Int) = 2 ^ 32 := by norm_num
  rw [hcast] at h
  exact h

/-- An integer weight never puts `c1 + mu (c2 - c1)` strictly between `c1` and `c2`. -/
theorem not_between_of_integer_weight (c1 c2 : Int) (mu : Nat) :
    ¬ (min c1 c2 < c1 + (mu : Int) * (c2 - c1) ∧ c1 + (mu : Int) * (c2 - c1) < max c1 c2) := by
  rintro ⟨hlo, hhi⟩
  rcases Nat.eq_zero_or_pos mu with h0 | hpos
  · subst h0
    simp only [Nat.cast_zero, zero_mul, add_zero] at hlo hhi
    rcases le_total c1 c2 with h | h
    · rw [min_eq_left h] at hlo
      exact lt_irrefl _ hlo
    · rw [max_eq_left h] at hhi
      exact lt_irrefl _ hhi
  · have hmu : (1 : Int) ≤ (mu : Int) := by exact_mod_cast hpos
    rcases le_total c1 c2 with h | h
    · rw [max_eq_right h] at hhi
      have : 0 ≤ ((mu : Int) - 1) * (c2 - c1) := mul_nonneg (by omega) (by omega)
      nlinarith
    · rw [min_eq_right h] at hlo
      have : 0 ≤ ((mu : Int) - 1) * (c1 - c2) := mul_nonneg (by omega) (by omega)
      nlinarith

/-- C14 (as stated) fails: with the first two packed colors of the default table and
the blend factor 82, `linearInterpolation(265985, 52832513, 82)` is `15753985`, a value
strictly between the two packed entries, because `265985 + 82 * 52566528` exceeds
`2 ^ 32`; likewise `linearInterpolation(0, 3, 0xAAAAAAAB) = 1`. -/
theorem linearInterpolation_counterexample :
    linearInterpolation 265985 52832513 82 = 15753985 ∧
    (min 265985 52832513 < linearInterpolation 265985 52832513 82 ∧
      linearInterpolation 265985 52832513 82 < max 265985 52832513) ∧
    linearInterpolation 0 3 0xAAAAAAAB = 1 := by
  decide

/-- C14 (amended): for all 32-bit unsigned `c1`, `c2`, `mu`,
`linearInterpolation(c1, c2, mu)` equals `(c1 + mu (c2 - c1)) mod 2^32`; hence it
returns `c1` when `mu = 0` and `c2` when `mu = 1`; and it produces a value strictly
between the two packed entries only when `c1 + mu (c2 - c1)` falls outside
`[0, 2^32)`, that is, by 32-bit wrap-around and never by sub-integer blending; in
particular never for `mu = 0` or `mu = 1`. -/
theorem linearInterpolation_spec (c1 c2 mu : Nat) (h1 : c1 < 2 ^ 32) (h2 : c2 < 2 ^ 32) :
    ((linearInterpolation c1 c2 mu : Nat) : Int)
      = ((c1 : Int) + (mu : Int) * ((c2 : Int) - (c1 : Int))) % 2 ^ 32 ∧
    linearInterpolation c1 c2 0 = c1 ∧
    linearInterpolation c1 c2 1 = c2 ∧
    ((min c1 c2 < linearInterpolation c1 c2 mu ∧ linearInterpolation c1 c2 mu < max c1 c2) →
      ((c1 : Int) + (mu : Int) * ((c2 : Int) - (c1 : Int)) < 0 ∨
        2 ^ 32 ≤ (c1 : Int) + (mu : Int) * ((c2 : Int) - (c1 : Int)))) ∧
    (mu ≤ 1 →
      ¬ (min c1 c2 < linearInterpolation c1 c2 mu ∧
         linearInterpolation c1 c2 mu < max c1 c2)) := by
  have hbetween : (min c1 c2 < linearInterpolation c1 c2 mu ∧
        linearInterpolation c1 c2 mu < max c1 c2) →
      ((c1 : Int) + (mu : Int) * ((c2 : Int) - (c1 : Int)) < 0 ∨
        2 ^ 32 ≤ (c1 : Int) + (mu : Int) * ((c2 : Int) - (c1 : Int))) := by
    intro hb
    by_contra hwrap
    push_neg at hwrap
    have h := linearInterpolation_emod c1 c2 mu
    rw [Int.emod_eq_of_lt hwrap.1 hwrap.2] at h
    apply not_between_of_integer_weight (c1 : Int) (c2 : Int) mu
    rw [← h]
    obtain ⟨hlo, hhi⟩ := hb
    constructor
    · exact_mod_cast hlo
    · exact_mod_cast hhi
  have h0 : linearInterpolation c1 c2 0 = c1 := by
    have h := linearInterpolation_emod c1 c2 0
    simp only [Nat.cast_zero, zero_mul, add_zero] at h
    omega
  have h1' : linearInterpolation c1 c2 1 = c2 := by
    have h := linearInterpolation_emod c1 c2 1
    simp only [Nat.cast_one, one_mul] at h
    omega
  refine ⟨linearInterpolation_emod c1 c2 mu, h0, h1', hbetween, ?_⟩
  intro hmu hb
  rcases Nat.le_one_iff_eq_zero_or_eq_one.mp hmu with hz | ho
  · subst hz
    rw [h0] at hb
    rcases le_total c1 c2 with h | h
    · rw [min_eq_left h] at hb
      exact lt_irrefl _ hb.1
    · rw [max_eq_left h] at hb
      exact lt_irrefl _ hb.2
  · subst ho
    rw [h1'] at hb
    rcases le_total c1 c2 with h | h
    · rw [max_eq_right h] at hb
      exact lt_irrefl _ hb.2
    · rw [min_eq_right h] at hb
      exact lt_irrefl _ hb.1

/-- Witness for `linearInterpolation_spec`: the first two packed colors of the default
table with the blend factors 82 (a value in between, reached by wrap-around) and 1. -/
theorem linearInterpolation_spec_witness :
    (((265985 : Nat) : Int) + ((82 : Nat) : Int)
        * (((52832513 : Nat) : Int) - ((265985 : Nat) : Int)) < 0 ∨
      2 ^ 32 ≤ ((265985 : Nat) : Int) + ((82 : Nat) : Int)
        * (((52832513 : Nat) : Int) - ((265985 : Nat) : Int))) ∧
    ¬ (min 265985 52832513 < linearInterpolation 265985 52832513 1 ∧
       linearInterpolation 265985 52832513 1 < max 265985 52832513) :=
  ⟨(linearInterpolation_spec 265985 52832513 82 (by norm_num) (by norm_num)).2.2.2.1
      (by decide),
   (linearInterpolation_spec 265985 52832513 1 (by norm_num) (by norm_num)).2.2.2.2
      (le_refl 1)⟩

/-! ### Length check -/

/-- C16: for every stop list, after the step-resolution loop the resolved-step list
and the packed-color list both have exactly the length of the stop list, so the
length check of line 112 passes and `interpolateColors` always runs the palette loop
instead of the branch that leaves the palette empty. -/
theorem resolveLoop_lengths (stops : List Color) :
    (resolveLoop stops.length stops 0 [] []).1.length = stops.length ∧
    (resolveLoop stops.length stops 0 [] []).2.length = stops.length ∧
    (stops.length = (resolveLoop stops.length stops 0 [] []).1.length ∧
      stops.length = (resolveLoop stops.length stops 0 [] []).2.length) ∧
    (∀ (cosPi : ℚ → ℚ) (fuel : Nat) (N : ℚ),
      interpolateColors cosPi stops fuel N
        = (gridLoop cosPi (resolveLoop stops.length stops 0 [] []).1
            (resolveLoop stops.length stops 0 [] []).2 stops.length (1 / N) fuel 0 []).map
            (List.map uint32ToRgba)) := by
  have h1 : (resolveLoop stops.length stops 0 [] []).1.length = stops.length :=
    (resolve_length stops).1
  have h2 : (resolveLoop stops.length stops 0 [] []).2.length = stops.length :=
    (resolve_length stops).2
  exact ⟨h1, h2, ⟨h1.symm, h2.symm⟩, fun cosPi fuel N => interpolateColors_eq cosPi stops fuel N⟩

/-! ### Prefix stability of the sampler -/

/-- The sampler with a bound above the least escaping index `k`. -/
theorem mandelIteration_of_escape (cx cy : ℚ) (m k : Nat) (hk : k < m)
    (hesc : 4 < normSq (orbit cx cy k)) (hleast : ∀ n, n < k → ¬ 4 < normSq (orbit cx cy n)) :
    mandelIteration cx cy (m : Int) = (normSq (orbit cx cy k), (k : Int)) := by
  have h := mandelLoop_escape cx cy (m : Int) k m 0 hk
    (by simpa using hesc) (fun n _ h2 => hleast n (by omega))
  simpa [mandelIteration, orbit] using h

/-- The sampler with a bound below which no index escapes. -/
theorem mandelIteration_of_bounded (cx cy : ℚ) (m : Nat)
    (hnot : ∀ n, n < m → ¬ 4 < normSq (orbit cx cy n)) :
    mandelIteration cx cy (m : Int) = (normSq (orbit cx cy m) / 2, (m : Int)) := by
  have h := mandelLoop_bounded cx cy (m : Int) m 0 (fun n _ h2 => hnot n (by omega))
  simpa [mandelIteration, orbit] using h

/-- For a bound that is not positive the loop does not run. -/
theorem mandelIteration_nonpos (cx cy : ℚ) (m : Int) (hm : m ≤ 0) :
    mandelIteration cx cy m = (0, m) := by
  have h0 : m.toNat = 0 := by omega
  simp [mandelIteration, h0, mandelLoop]

/-- The sampler either stops at the least escaping index below the bound or runs to
the bound. -/
theorem mandelIteration_cases (cx cy : ℚ) (m : Nat) :
    (∃ k, k < m ∧ 4 < normSq (orbit cx cy k) ∧ (∀ n, n < k → ¬ 4 < normSq (orbit cx cy n)) ∧
        mandelIteration cx cy (m : Int) = (normSq (orbit cx cy k), (k : Int))) ∨
    ((∀ n, n < m → ¬ 4 < normSq (orbit cx cy n)) ∧
        mandelIteration cx cy (m : Int) = (normSq (orbit cx cy m) / 2, (m : Int))) := by
  classical
  by_cases h : ∃ k, k < m ∧ 4 < normSq (orbit cx cy k)
  · left
    have hfind := Nat.find_spec h
    have hmin : ∀ n, n < Nat.find h → ¬ 4 < normSq (orbit cx cy n) := by
      intro n hn hesc
      exact Nat.find_min h hn ⟨lt_trans hn hfind.1, hesc⟩
    exact ⟨Nat.find h, hfind.1, hfind.2, hmin,
      mandelIteration_of_escape cx cy m _ hfind.1 hfind.2 hmin⟩
  · right
    have hnot : ∀ n, n < m → ¬ 4 < normSq (orbit cx cy n) := fun n hn hesc => h ⟨n, hn, hesc⟩
    exact ⟨hnot, mandelIteration_of_bounded cx cy m hnot⟩

/-- C17: for every point and bounds `m ≤ m'`, if `mandelIteration(cx, cy, m)` returns
an iteration count `k < m`, then `mandelIteration(cx, cy, m')` returns exactly the same
pair; and for every `maxIter ≥ 0` the returned count lies in `[0, maxIter]`. -/
theorem mandelIteration_stable (cx cy : ℚ) :
    (∀ m m' : Int, m ≤ m' → (mandelIteration cx cy m).2 < m →
      mandelIteration cx cy m' = mandelIteration cx cy m) ∧
    (∀ maxIter : Int, 0 ≤ maxIter →
      0 ≤ (mandelIteration cx cy maxIter).2 ∧ (mandelIteration cx cy maxIter).2 ≤ maxIter) := by
  constructor
  · intro m m' hle hk
    have hpos : 0 < m := by
      by_contra hm
      rw [mandelIteration_nonpos cx cy m (by omega)] at hk
      exact lt_irrefl _ hk
    obtain ⟨a, rfl⟩ : ∃ a : Nat, m = (a : Int) := ⟨m.toNat, by omega⟩
    obtain ⟨b, rfl⟩ : ∃ b : Nat, m' = (b : Int) := ⟨m'.toNat, by omega⟩
    rcases mandelIteration_cases cx cy a with ⟨k, hka, hesc, hleast, heq⟩ | ⟨_, heq⟩
    · rw [heq, mandelIteration_of_escape cx cy b k (by omega) hesc hleast]
    · rw [heq] at hk
      exact absurd hk (lt_irrefl _)
  · intro maxIter h0
    obtain ⟨a, rfl⟩ : ∃ a : Nat, maxIter = (a : Int) := ⟨maxIter.toNat, by omega⟩
    rcases mandelIteration_cases cx cy a with ⟨k, hka, _, _, heq⟩ | ⟨_, heq⟩
    · rw [heq]
      constructor
      · exact Int.natCast_nonneg k
      · show (k : Int) ≤ (a : Int)
        omega
    · rw [heq]
      exact ⟨Int.natCast_nonneg a, le_refl _⟩

/-- Witness for `mandelIteration_stable`: with `c = 2+2i` the bound 5 gives the count
1, and the bound 800 gives the same pair. -/
theorem mandelIteration_stable_witness :
    mandelIteration 2 2 800 = mandelIteration 2 2 5 ∧
    (0 ≤ (mandelIteration 2 2 800).2 ∧ (mandelIteration 2 2 800).2 ≤ 800) :=
  ⟨(mandelIteration_stable 2 2).1 5 800 (by decide)
      (by norm_num [mandelIteration, mandelLoop]),
   (mandelIteration_stable 2 2).2 800 (by decide)⟩

/-! ### Alpha channel -/

/-- A written pixel is an unpacked 32-bit value. -/
theorem fillPixel_write (colors : List RGBA) (s : ℚ) (c : RGBA)
    (h : fillPixel colors s = PixelOutcome.write c) : ∃ col, c = uint32ToRgba col := by
  unfold fillPixel at h
  split at h
  · split at h
    · injection h with h
      exact ⟨_, h.symm⟩
    · exact absurd h (by simp)
  · exact absurd h (by simp)

/-- A pixel outcome that is a write comes from the guarded fill. -/
theorem pixelOutcome_write (log : ℚ → Option ℚ) (maxIteration : Int) (colors : List RGBA)
    (xmin xmax ymin ymax : ℚ) (width height ix iy : Nat) (c : RGBA)
    (h : pixelOutcome log maxIteration colors xmin xmax ymin ymax width height ix iy
      = PixelOutcome.write c) : ∃ s, fillPixel colors s = PixelOutcome.write c := by
  unfold pixelOutcome at h
  split at h
  · simp only at h
    split at h
    · exact ⟨_, h⟩
    · exact absurd h (by simp)
  · exact absurd h (by simp)

/-- C19: every color produced by `uint32ToRgba`, every color of a palette returned by
`interpolateColors`, and every pixel value written by `render` has alpha exactly 255,
whatever the alpha of the color stops and the low byte of the packed value. -/
theorem alpha_opaque :
    (∀ col : Nat, (uint32ToRgba col).A = 255) ∧
    (∀ (cosPi : ℚ → ℚ) (stops : List Color) (fuel : Nat) (N : ℚ) (palette : List RGBA),
      interpolateColors cosPi stops fuel N = some palette → ∀ c ∈ palette, c.A = 255) ∧
    (∀ (colors : List RGBA) (s : ℚ) (c : RGBA),
      fillPixel colors s = PixelOutcome.write c → c.A = 255) ∧
    (∀ (log : ℚ → Option ℚ) (maxIteration : Int) (colors : List RGBA)
      (xmin xmax ymin ymax : ℚ) (width height ix iy : Nat) (c : RGBA),
      pixelOutcome log maxIteration colors xmin xmax ymin ymax width height ix iy
        = PixelOutcome.write c → c.A = 255) := by
  have hA : ∀ col : Nat, (uint32ToRgba col).A = 255 := fun col => rfl
  refine ⟨hA, ?_, ?_, ?_⟩
  · intro cosPi stops fuel N palette hp c hc
    rw [interpolateColors_eq] at hp
    cases hg : gridLoop cosPi (resolveSteps stops) (resolveCols stops) stops.length (1 / N)
        fuel 0 [] with
    | none => rw [hg] at hp; exact absurd hp (by simp)
    | some out =>
      rw [hg, Option.map_some'] at hp
      injection hp with hp
      rw [← hp, List.mem_map] at hc
      obtain ⟨col, _, rfl⟩ := hc
      exact hA col
  · intro colors s c h
    obtain ⟨col, rfl⟩ := fillPixel_write colors s c h
    exact hA col
  · intro log maxIteration colors xmin xmax ymin ymax width height ix iy c h
    obtain ⟨s, hs⟩ := pixelOutcome_write _ _ _ _ _ _ _ _ _ _ _ c h
    obtain ⟨col, rfl⟩ := fillPixel_write colors s c hs
    exact hA col

/-- Witness for `alpha_opaque` on the palette of the two-stop scenario, whose stops
have alpha 255 packed as `0x101`. -/
theorem alpha_opaque_witness :
    ∃ palette, interpolateColors bhaskaraCosPi blackWhite 5 4 = some palette ∧
      ∀ c ∈ palette, c.A = 255 := by
  obtain ⟨palette, hp, _⟩ :=
    interpolateColors_blackWhite bhaskaraCosPi (by norm_num [bhaskaraCosPi]) 5 (le_refl 5)
  exact ⟨palette, hp, alpha_opaque.2.1 bhaskaraCosPi blackWhite 5 4 palette hp⟩

/-! ### Palette entries and grid points -/

/-- The inner loop appends, for every bracket that holds the grid point, the truncated
cosine interpolation of the two packed colors, higher stop first. -/
theorem bracketLoop_eq (cosPi : ℚ → ℚ) (steps : List ℚ) (cols : List Nat) (len : Nat)
    (i : ℚ) (interpolated : List Nat) :
    bracketLoop cosPi steps cols len i interpolated
      = interpolated ++ (bracketsAt steps len i).map (fun j =>
          toUint32 (cosineInterpolation cosPi (cols.getD (j + 1) 0 : ℚ) (cols.getD j 0 : ℚ)
            ((i - steps.getD j 0) / (steps.getD (j + 1) 0 - steps.getD j 0)))) := by
  unfold bracketLoop bracketsAt
  generalize List.range (len - 1) = l
  induction l generalizing interpolated with
  | nil => simp
  | cons j rest ih =>
    simp only [List.foldl_cons]
    rw [ih]
    by_cases h : i ≥ steps.getD j 0 ∧ i < steps.getD (j + 1) 0
    · have hd : decide (i ≥ steps.getD j 0 ∧ i < steps.getD (j + 1) 0) = true :=
        decide_eq_true h
      rw [if_pos h]
      simp only [List.filter_cons, hd, if_true, List.map_cons, List.append_assoc,
        List.singleton_append]
    · have hd : decide (i ≥ steps.getD j 0 ∧ i < steps.getD (j + 1) 0) = false :=
        decide_eq_false h
      rw [if_neg h]
      simp only [List.filter_cons, hd, Bool.false_eq_true, if_false]

/-- The grid loop runs the inner loop at the visited grid points, in order. -/
theorem gridLoop_eq_visits (cosPi : ℚ → ℚ) (steps : List ℚ) (cols : List Nat) (len : Nat)
    (factor : ℚ) :
    ∀ (fuel : Nat) (i : ℚ) (acc : List Nat),
      gridLoop cosPi steps cols len factor fuel i acc
        = (gridVisits factor fuel i).map
            (fun pts => pts.foldl (fun a p => bracketLoop cosPi steps cols len p a) acc) := by
  intro fuel
  induction fuel with
  | zero =>
    intro i acc
    by_cases hi : i ≤ 1
    · simp [gridLoop, gridVisits, hi]
    · simp [gridLoop, gridVisits, hi]
  | succ f ih =>
    intro i acc
    by_cases hi : i ≤ 1
    · simp only [gridLoop, gridVisits, if_pos hi]
      rw [ih]
      cases gridVisits factor f (i + factor) with
      | none => rfl
      | some rest => rfl
    · simp [gridLoop, gridVisits, hi]

/-- Beyond 1 no grid point is visited. -/
theorem gridVisits_exit (factor : ℚ) (fuel : Nat) (i : ℚ) (hi : ¬ i ≤ 1) :
    gridVisits factor fuel i = some [] := by
  cases fuel with
  | zero => simp [gridVisits, hi]
  | succ f => simp [gridVisits, hi]

/-- For `factor = 1/N`, `N > 0`, the loop started at `k/N` visits `k/N, (k+1)/N, ...` up to
`floor(N)/N` and then ends. -/
theorem gridVisits_from (N : ℚ) (hN : 0 < N) :
    ∀ (fuel k : Nat), ⌊N⌋₊ + 1 ≤ k + fuel → k ≤ ⌊N⌋₊ + 1 →
      gridVisits (1 / N) fuel ((k : ℚ) * (1 / N))
        = some ((List.range' k (⌊N⌋₊ + 1 - k)).map (fun n : Nat => (n : ℚ) * (1 / N))) := by
  have hpast : ∀ k : Nat, ⌊N⌋₊ + 1 ≤ k → ¬ (k : ℚ) * (1 / N) ≤ 1 := by
    intro k hk hle
    have h1 : N < (⌊N⌋₊ : ℚ) + 1 := Nat.lt_floor_add_one N
    have h2 : ((⌊N⌋₊ + 1 : Nat) : ℚ) ≤ (k : ℚ) := by exact_mod_cast hk
    have h3 : (k : ℚ) ≤ N := by
      rw [mul_one_div, div_le_one hN] at hle
      exact hle
    push_cast at h2
    linarith
  intro fuel
  induction fuel with
  | zero =>
    intro k h1 h2
    have hsub : ⌊N⌋₊ + 1 - k = 0 := by omega
    rw [hsub, gridVisits_exit _ _ _ (hpast k (by omega))]
    rfl
  | succ f ih =>
    intro k h1 h2
    by_cases hk : k ≤ ⌊N⌋₊
    · have hkN : (k : ℚ) ≤ N := (Nat.le_floor_iff (le_of_lt hN)).mp hk
      have hi1 : (k : ℚ) * (1 / N) ≤ 1 := by
        rw [mul_one_div, div_le_one hN]
        exact hkN
      have hnext : (k : ℚ) * (1 / N) + 1 / N = ((k + 1 : Nat) : ℚ) * (1 / N) := by
        push_cast
        ring
      simp only [gridVisits, if_pos hi1]
      rw [hnext, ih (k + 1) (by omega) (by omega), Option.map_some']
      have hlen : ⌊N⌋₊ + 1 - k = (⌊N⌋₊ + 1 - (k + 1)) + 1 := by omega
      rw [hlen, List.range'_succ, List.map_cons]
    · have hsub : ⌊N⌋₊ + 1 - k = 0 := by omega
      rw [hsub, gridVisits_exit _ _ _ (hpast k (by omega))]
      rfl

/-- For `N > 0` and room for `floor(N) + 1` grid points the loop visits exactly the
grid points `k/N`, `k = 0..floor(N)`. -/
theorem gridVisits_eq (N : ℚ) (hN : 0 < N) (fuel : Nat) (hfuel : ⌊N⌋₊ + 1 ≤ fuel) :
    gridVisits (1 / N) fuel 0
      = some ((List.range (⌊N⌋₊ + 1)).map (fun k : Nat => (k : ℚ) / N)) := by
  have h := gridVisits_from N hN fuel 0 (by omega) (by omega)
  rw [Nat.cast_zero, zero_mul] at h
  rw [h, List.range_eq_range']
  simp only [Nat.sub_zero, mul_one_div]

/-- Running the inner loop over a list of grid points appends their entries in order. -/
theorem foldl_bracketLoop (cosPi : ℚ → ℚ) (steps : List ℚ) (cols : List Nat) (len : Nat) :
    ∀ (pts : List ℚ) (acc : List Nat),
      pts.foldl (fun a p => bracketLoop cosPi steps cols len p a) acc
        = acc ++ pts.flatMap (fun i => (bracketsAt steps len i).map (fun j =>
            toUint32 (cosineInterpolation cosPi (cols.getD (j + 1) 0 : ℚ) (cols.getD j 0 : ℚ)
              ((i - steps.getD j 0) / (steps.getD (j + 1) 0 - steps.getD j 0))))) := by
  intro pts
  induction pts with
  | nil => intro acc; simp
  | cons p rest ih =>
    intro acc
    rw [List.foldl_cons, ih, bracketLoop_eq, List.flatMap_cons, List.append_assoc]

/-- Conversion to `uint32` of an integer-valued `float64` that is not negative. -/
theorem toUint32_natCast_mod (n : Nat) : toUint32 (n : ℚ) = n % 2 ^ 32 := by
  have h0 : (0 : ℚ) ≤ (n : ℚ) := Nat.cast_nonneg n
  rw [toUint32, truncInt, if_pos h0, Int.floor_natCast]
  omega

/-- The palette as the list of the specification's entries, grid point by grid point. -/
theorem interpolateColors_flatMap (cosPi : ℚ → ℚ) (stops : List Color) (N : ℚ) (hN : 0 < N)
    (fuel : Nat) (hfuel : ⌊N⌋₊ + 1 ≤ fuel) :
    interpolateColors cosPi stops fuel N
      = some (((List.range (⌊N⌋₊ + 1)).map (fun k : Nat => (k : ℚ) / N)).flatMap (fun i =>
          (bracketsAt (resolveSteps stops) stops.length i).map
            (blendEntry cosPi (resolveSteps stops) (resolveCols stops) i))) := by
  rw [interpolateColors_eq, gridLoop_eq_visits, gridVisits_eq N hN fuel hfuel,
    Option.map_some', Option.map_some', foldl_bracketLoop, List.nil_append]
  congr 1
  generalize (List.range (⌊N⌋₊ + 1)).map (fun k : Nat => (k : ℚ) / N) = pts
  induction pts with
  | nil => rfl
  | cons p rest ih =>
    rw [List.flatMap_cons, List.flatMap_cons, List.map_append, ih, List.map_map]
    rfl

/-- For non-decreasing steps the inner loop appends at most one entry. -/
theorem bracketLoop_length_le (cosPi : ℚ → ℚ) (steps : List ℚ) (cols : List Nat)
    (hs : steps.Pairwise (· ≤ ·)) (i : ℚ) (acc : List Nat) :
    (bracketLoop cosPi steps cols steps.length i acc).length ≤ acc.length + 1 := by
  rw [bracketLoop_length]
  by_cases hne : steps = []
  · subst hne
    simp [bracketCount]
  · rw [bracketCount_sorted steps hs hne]
    split <;> omega

/-- C18: for every target count `N > 0`, given room for `floor(N) + 1` passes, the
palette loop of `interpolateColors` ends after visiting exactly the grid points
`i = k/N`, `k = 0..floor(N)`, running the inner loop once at each of them in this
order, and whenever the resolved steps are non-decreasing the inner loop appends at
most one entry per grid point. -/
theorem gridLoop_terminates (cosPi : ℚ → ℚ) (stops : List Color) (N : ℚ) (hN : 0 < N)
    (fuel : Nat) (hfuel : ⌊N⌋₊ + 1 ≤ fuel) :
    gridVisits (1 / N) fuel 0
      = some ((List.range (⌊N⌋₊ + 1)).map (fun k : Nat => (k : ℚ) / N)) ∧
    ((List.range (⌊N⌋₊ + 1)).map (fun k : Nat => (k : ℚ) / N)).length = ⌊N⌋₊ + 1 ∧
    gridLoop cosPi (resolveSteps stops) (resolveCols stops) stops.length (1 / N) fuel 0 []
      = some (((List.range (⌊N⌋₊ + 1)).map (fun k : Nat => (k : ℚ) / N)).foldl
          (fun a p => bracketLoop cosPi (resolveSteps stops) (resolveCols stops) stops.length p a)
          []) ∧
    (∃ palette, interpolateColors cosPi stops fuel N = some palette) ∧
    ((resolveSteps stops).Pairwise (· ≤ ·) →
      (∀ (i : ℚ) (acc : List Nat),
        (bracketLoop cosPi (resolveSteps stops) (resolveCols stops) stops.length i acc).length
          ≤ acc.length + 1)) := by
  refine ⟨gridVisits_eq N hN fuel hfuel, by simp, ?_, ?_, ?_⟩
  · rw [gridLoop_eq_visits, gridVisits_eq N hN fuel hfuel, Option.map_some']
  · exact ⟨_, interpolateColors_flatMap cosPi stops N hN fuel hfuel⟩
  · intro hs i acc
    have hlen : stops.length = (resolveSteps stops).length := (resolve_length stops).1.symm
    rw [hlen]
    exact bracketLoop_length_le cosPi _ _ hs i acc

/-- Witness for `gridLoop_terminates`: the default table with `N = 6000`. -/
theorem gridLoop_terminates_witness :
    gridVisits (1 / 6000) 6001 0
      = some ((List.range (⌊(6000 : ℚ)⌋₊ + 1)).map (fun k : Nat => (k : ℚ) / 6000)) ∧
    (∃ palette, interpolateColors bhaskaraCosPi lsdcolors 6001 6000 = some palette) :=
  ⟨(gridLoop_terminates bhaskaraCosPi lsdcolors 6000 (by norm_num) 6001 (by simp)).1,
   (gridLoop_terminates bhaskaraCosPi lsdcolors 6000 (by norm_num) 6001 (by simp)).2.2.2.1⟩

/-! ### Writes to the buffer -/

/-- The window used by `render` is `viewWindow`. -/
theorem render_eq_window (log : ℚ → Option ℚ) (xpos ypos escapeRadius : ℚ)
    (width height : Nat) (maxIteration : Int) (colors : List RGBA) :
    render log xpos ypos escapeRadius width height maxIteration colors
      = (List.range height).foldlM
          (rowTask log maxIteration colors
            (viewWindow xpos ypos escapeRadius width height).1
            (viewWindow xpos ypos escapeRadius width height).2.1
            (viewWindow xpos ypos escapeRadius width height).2.2.1
            (viewWindow xpos ypos escapeRadius width height).2.2.2 width height)
          (newRGBA width height) := rfl

/-- The window of the 2 x 2 viewport of radius 1 around `(3/2, 3/2)`. -/
theorem viewWindow_unit : viewWindow (3 / 2) (3 / 2) 1 2 2 = (1, 2, 1, 2) := by
  norm_num [viewWindow]

/-- An outcome faults or changes the buffer inside the row of its pixel only. -/
theorem applyOutcome_eq_modify (o : PixelOutcome) (img : Image) (ix iy : Nat) :
    applyOutcome o img ix iy
      = if decide (o = PixelOutcome.fault) then none
        else some (List.modify (fun row => rowSet o row ix) iy img) := by
  cases o with
  | write c => rfl
  | skip =>
    show some img = some (List.modify id iy img)
    rw [List.modify_id]
  | fault => rfl

/-- Running the pixel loop body over a list of columns faults or rewrites row `iy`. -/
theorem foldlM_pixelStep (log : ℚ → Option ℚ) (maxIteration : Int) (colors : List RGBA)
    (xmin xmax ymin ymax : ℚ) (width height iy : Nat) :
    ∀ (l : List Nat) (img : Image),
      l.foldlM (pixelStep log maxIteration colors xmin xmax ymin ymax width height iy) img
        = if l.any (fun ix => decide
              (pixelOutcome log maxIteration colors xmin xmax ymin ymax width height ix iy
                = PixelOutcome.fault)) then none
          else some (List.modify (fun row => l.foldl (fun r ix =>
            rowSet (pixelOutcome log maxIteration colors xmin xmax ymin ymax width height ix iy)
              r ix) row) iy img) := by
  intro l
  induction l with
  | nil =>
    intro img
    show some img = some (List.modify id iy img)
    rw [List.modify_id]
  | cons ix rest ih =>
    intro img
    rw [List.foldlM_cons, pixelStep, applyOutcome_eq_modify]
    by_cases hf : pixelOutcome log maxIteration colors xmin xmax ymin ymax width height ix iy
        = PixelOutcome.fault
    · simp [hf]
    · have hd : decide (pixelOutcome log maxIteration colors xmin xmax ymin ymax width height
          ix iy = PixelOutcome.fault) = false := decide_eq_false hf
      rw [hd]
      simp only [Bool.false_eq_true, if_false, List.any_cons, hd, Bool.false_or]
      show rest.foldlM _ _ = _
      rw [ih, List.modify_modify_eq]
      rfl

/-- The task of row `iy` faults or replaces row `iy` by a function of that row. -/
theorem rowTask_eq_modify (log : ℚ → Option ℚ) (maxIteration : Int) (colors : List RGBA)
    (xmin xmax ymin ymax : ℚ) (width height : Nat) (img : Image) (iy : Nat) :
    rowTask log maxIteration colors xmin xmax ymin ymax width height img iy
      = if rowFaults log maxIteration colors xmin xmax ymin ymax width height iy then none
        else some (List.modify (fun row => (List.range width).foldl (fun r ix =>
          rowSet (pixelOutcome log maxIteration colors xmin xmax ymin ymax width height ix iy)
            r ix) row) iy img) :=
  foldlM_pixelStep log maxIteration colors xmin xmax ymin ymax width height iy _ img

/-- Pixel by pixel, the row after the column loop over `0..w-1`. -/
theorem foldl_rowSet (out : Nat → PixelOutcome) :
    ∀ (w : Nat) (row : List RGBA) (p : Nat),
      ((List.range w).foldl (fun r ix => rowSet (out ix) r ix) row)[p]?
        = (row[p]?).map (fun old => if p < w then writtenValue (out p) old else old) := by
  intro w
  induction w with
  | zero =>
    intro row p
    have hid : (fun old : RGBA => if p < 0 then writtenValue (out p) old else old) = id := by
      funext old
      rw [if_neg (Nat.not_lt_zero p)]
      rfl
    rw [hid, Option.map_id]
    rfl
  | succ w ih =>
    intro row p
    rw [List.range_succ, List.foldl_append, List.foldl_cons, List.foldl_nil]
    have ihp := ih row p
    generalize (List.range w).foldl (fun r ix => rowSet (out ix) r ix) row = done at ihp ⊢
    by_cases hpw : p = w
    · have hfun : (fun old : RGBA => if p < w then writtenValue (out p) old else old) = id := by
        funext old
        rw [if_neg (by omega)]
        rfl
      have hfun' : (fun old : RGBA => if p < w + 1 then writtenValue (out p) old else old)
          = writtenValue (out p) := by
        funext old
        rw [if_pos (by omega)]
      rw [hfun, Option.map_id] at ihp
      rw [hfun', ← hpw]
      cases ho : out p with
      | write c =>
        simp only [rowSet]
        rw [List.getElem?_set', if_pos rfl, ihp]
        cases row[p]? <;> rfl
      | skip =>
        simp only [rowSet]
        rw [ihp]
        cases row[p]? <;> rfl
      | fault =>
        simp only [rowSet]
        rw [ihp]
        cases row[p]? <;> rfl
    · have hfun : (fun old : RGBA => if p < w + 1 then writtenValue (out p) old else old)
          = (fun old : RGBA => if p < w then writtenValue (out p) old else old) := by
        funext old
        by_cases hlt : p < w
        · rw [if_pos hlt, if_pos (by omega)]
        · rw [if_neg hlt, if_neg (by omega)]
      rw [hfun, ← ihp]
      cases out w with
      | write c =>
        simp only [rowSet]
        rw [List.getElem?_set', if_neg (fun h => hpw h.symm)]
      | skip => rfl
      | fault => rfl

/-- Two row tasks commute, faults included. -/
theorem rowTask_comm (log : ℚ → Option ℚ) (maxIteration : Int) (colors : List RGBA)
    (xmin xmax ymin ymax : ℚ) (width height : Nat) (img : Image) (a b : Nat) :
    (rowTask log maxIteration colors xmin xmax ymin ymax width height img a).bind
        (fun img' => rowTask log maxIteration colors xmin xmax ymin ymax width height img' b)
      = (rowTask log maxIteration colors xmin xmax ymin ymax width height img b).bind
        (fun img' => rowTask log maxIteration colors xmin xmax ymin ymax width height img' a) := by
  by_cases hab : a = b
  · rw [hab]
  · simp only [rowTask_eq_modify]
    cases rowFaults log maxIteration colors xmin xmax ymin ymax width height a <;>
      cases rowFaults log maxIteration colors xmin xmax ymin ymax width height b <;>
      simp [List.modify_modify_ne _ _ _ hab]

/-- A fold of commuting fallible steps does not depend on the order of the list. -/
theorem perm_foldlM {α β : Type} (f : α → β → Option α)
    (comm : ∀ a x y, (f a x).bind (fun a' => f a' y) = (f a y).bind (fun a' => f a' x))
    {l₁ l₂ : List β} (hp : List.Perm l₁ l₂) :
    ∀ a : α, l₁.foldlM f a = l₂.foldlM f a := by
  induction hp with
  | nil => intro a; rfl
  | cons x _ ih =>
    intro a
    rw [List.foldlM_cons, List.foldlM_cons]
    cases f a x with
    | none => rfl
    | some a' => exact ih a'
  | swap x y l =>
    intro a
    simp only [List.foldlM_cons]
    have e1 : (f a y >>= fun a' => f a' x >>= fun a'' => List.foldlM f a'' l)
        = ((f a y).bind (fun a' => f a' x)).bind (fun a'' => List.foldlM f a'' l) := by
      cases f a y <;> rfl
    have e2 : (f a x >>= fun a' => f a' y >>= fun a'' => List.foldlM f a'' l)
        = ((f a x).bind (fun a' => f a' y)).bind (fun a'' => List.foldlM f a'' l) := by
      cases f a x <;> rfl
    rw [e1, e2, comm a y x]
  | trans _ _ ih1 ih2 => intro a; rw [ih1, ih2]

/-- Conversion to `uint32` of a value between `k` and `k + 1`. -/
theorem toUint32_eval (s : ℚ) (k : Nat) (h0 : (k : ℚ) ≤ s) (h1 : s < (k : ℚ) + 1)
    (hk : k < 2 ^ 32) : toUint32 s = k := by
  have hs : (0 : ℚ) ≤ s := le_trans (Nat.cast_nonneg k) h0
  have hfl : ⌊s⌋ = (k : Int) := by
    rw [Int.floor_eq_iff]
    exact ⟨by exact_mod_cast h0, by exact_mod_cast h1⟩
  rw [toUint32, truncInt, if_pos hs, hfl]
  omega

/-- The guarded fill for a smoothed value between `k` and `k + 1`, `k + 1` a palette
index. -/
theorem fillPixel_eval (colors : List RGBA) (s : ℚ) (k : Nat) (c1 c2 : RGBA)
    (h0 : (k : ℚ) ≤ s) (h1 : s < (k : ℚ) + 1) (hk : k + 1 < colors.length)
    (hc1 : colors[k]? = some c1) (hc2 : colors[k + 1]? = some c2) (hk32 : k < 2 ^ 32) :
    fillPixel colors s = PixelOutcome.write (uint32ToRgba
      (linearInterpolation (rgbaToUint c1) (rgbaToUint c2) k)) := by
  have hs : (0 : ℚ) ≤ s := le_trans (Nat.cast_nonneg k) h0
  have hfl : truncInt |s| = (k : Int) := by
    rw [(truncInt_abs s).1, abs_of_nonneg hs, Int.floor_eq_iff]
    exact ⟨by exact_mod_cast h0, by exact_mod_cast h1⟩
  have hg : truncInt |s| < (colors.length : Int) - 1 := by rw [hfl]; omega
  have hi1 : indexColors colors (truncInt |s|) = some c1 := by
    rw [hfl, indexColors, if_neg (by omega)]
    simpa using hc1
  have hi2 : indexColors colors (truncInt |s| + 1) = some c2 := by
    rw [hfl, indexColors, if_neg (by omega)]
    have : ((k : Int) + 1).toNat = k + 1 := by omega
    rw [this]
    exact hc2
  rw [fillPixel, if_pos hg, hi1, hi2, toUint32_eval s k h0 h1 hk32]

/-- The four pixel outcomes of the 2 x 2 viewport of radius 1 around `(3/2, 3/2)` with
the six-color palette and `maxIteration = 3`: every pixel is written. -/
theorem pixelOutcome_unit :
    pixelOutcome logStandIn 3 sixColors 1 2 1 2 2 2 0 0
      = PixelOutcome.write ⟨41, 107, 243, 255⟩ ∧
    pixelOutcome logStandIn 3 sixColors 1 2 1 2 2 2 1 0
      = PixelOutcome.write ⟨237, 160, 27, 255⟩ ∧
    pixelOutcome logStandIn 3 sixColors 1 2 1 2 2 2 0 1
      = PixelOutcome.write ⟨237, 160, 27, 255⟩ ∧
    pixelOutcome logStandIn 3 sixColors 1 2 1 2 2 2 1 1
      = PixelOutcome.write ⟨237, 160, 27, 255⟩ := by
  have hx0 : pixelToPlane 1 2 0 2 = some 1 := by norm_num [pixelToPlane]
  have hx1 : pixelToPlane 1 2 1 2 = some 2 := by norm_num [pixelToPlane]
  have h11 : mandelIteration 1 1 3 = (10, 2) := by norm_num [mandelIteration, mandelLoop]
  have h21 : mandelIteration 2 1 3 = (5, 1) := by norm_num [mandelIteration, mandelLoop]
  have h12 : mandelIteration 1 2 3 = (5, 1) := by norm_num [mandelIteration, mandelLoop]
  have h22 : mandelIteration 2 2 3 = (8, 1) := by norm_num [mandelIteration, mandelLoop]
  refine ⟨?_, ?_, ?_, ?_⟩
  · unfold pixelOutcome
    rw [hx0]
    simp only
    rw [h11]
    simp only [logStandIn]
    norm_num
    rw [fillPixel_eval sixColors _ 2 ⟨7, 62, 30, 255⟩ ⟨24, 85, 8, 255⟩ (by norm_num)
      (by norm_num) (by decide) (by decide) (by decide) (by norm_num)]
    decide
  · unfold pixelOutcome
    rw [hx0, hx1]
    simp only
    rw [h21]
    simp only [logStandIn]
    norm_num
    rw [fillPixel_eval sixColors _ 3 ⟨24, 85, 8, 255⟩ ⟨95, 110, 15, 255⟩ (by norm_num)
      (by norm_num) (by decide) (by decide) (by decide) (by norm_num)]
    decide
  · unfold pixelOutcome
    rw [hx0, hx1]
    simp only
    rw [h12]
    simp only [logStandIn]
    norm_num
    rw [fillPixel_eval sixColors _ 3 ⟨24, 85, 8, 255⟩ ⟨95, 110, 15, 255⟩ (by norm_num)
      (by norm_num) (by decide) (by decide) (by decide) (by norm_num)]
    decide
  · unfold pixelOutcome
    rw [hx1]
    simp only
    rw [h22]
    simp only [logStandIn]
    norm_num
    rw [fillPixel_eval sixColors _ 3 ⟨24, 85, 8, 255⟩ ⟨95, 110, 15, 255⟩ (by norm_num)
      (by norm_num) (by decide) (by decide) (by decide) (by norm_num)]
    decide

/-- The buffer of that viewport: `render` writes all four pixels. -/
theorem render_unit :
    render logStandIn (3 / 2) (3 / 2) 1 2 2 3 sixColors
      = some [[⟨41, 107, 243, 255⟩, ⟨237, 160, 27, 255⟩],
              [⟨237, 160, 27, 255⟩, ⟨237, 160, 27, 255⟩]] := by
  obtain ⟨h00, h10, h01, h11⟩ := pixelOutcome_unit
  have hrange : List.range 2 = [0, 1] := rfl
  rw [render_eq_window, viewWindow_unit]
  simp only [rowTask, pixelStep, hrange, List.foldlM_cons, List.foldlM_nil, h00, h10, h01, h11,
    applyOutcome]
  rfl

/-- C15: in `render`, the task for row `iy` leaves every other row of the buffer as it
is, and the value it leaves at `(ix, iy)` is the color written for the outcome of
pixel `(ix, iy)`, which depends on `(ix, iy)`, the viewport and the palette only (or
the old value when the pixel is skipped); whether the task completes does not depend
on the buffer either; consequently running the row tasks one after another in any
order gives the same result, and any order of the `height` tasks gives the result of
`render`. -/
theorem rowTask_independent (log : ℚ → Option ℚ) (maxIteration : Int) (colors : List RGBA)
    (xmin xmax ymin ymax : ℚ) (width height : Nat) :
    (∀ (img img' : Image) (iy : Nat),
      rowTask log maxIteration colors xmin xmax ymin ymax width height img iy = some img' →
      ∀ iy', iy' ≠ iy → img'[iy']? = img[iy']?) ∧
    (∀ (img img' : Image) (iy : Nat),
      rowTask log maxIteration colors xmin xmax ymin ymax width height img iy = some img' →
      ∀ ix, img'.pixelAt ix iy
        = (img.pixelAt ix iy).map (fun old =>
            if ix < width then
              writtenValue
                (pixelOutcome log maxIteration colors xmin xmax ymin ymax width height ix iy) old
            else old)) ∧
    (∀ (img : Image) (iy : Nat),
      rowTask log maxIteration colors xmin xmax ymin ymax width height img iy = none
        ↔ rowFaults log maxIteration colors xmin xmax ymin ymax width height iy = true) ∧
    (∀ (order₁ order₂ : List Nat) (img : Image), List.Perm order₁ order₂ →
      order₁.foldlM (rowTask log maxIteration colors xmin xmax ymin ymax width height) img
        = order₂.foldlM (rowTask log maxIteration colors xmin xmax ymin ymax width height) img) ∧
    (∀ (xpos ypos escapeRadius : ℚ) (order : List Nat), List.Perm order (List.range height) →
      order.foldlM
          (rowTask log maxIteration colors
            (viewWindow xpos ypos escapeRadius width height).1
            (viewWindow xpos ypos escapeRadius width height).2.1
            (viewWindow xpos ypos escapeRadius width height).2.2.1
            (viewWindow xpos ypos escapeRadius width height).2.2.2 width height)
          (newRGBA width height)
        = render log xpos ypos escapeRadius width height maxIteration colors) := by
  refine ⟨?_, ?_, ?_, ?_, ?_⟩
  · intro img img' iy h iy' hne
    rw [rowTask_eq_modify] at h
    split at h
    · exact absurd h (by simp)
    · injection h with h
      rw [← h, List.getElem?_modify_ne _ _ (fun e => hne e.symm)]
  · intro img img' iy h ix
    rw [rowTask_eq_modify] at h
    split at h
    · exact absurd h (by simp)
    · injection h with h
      rw [← h, Image.pixelAt, Image.pixelAt, List.getElem?_modify_eq]
      cases img[iy]? with
      | none => rfl
      | some row =>
        simp only [Option.map_eq_map, Option.map_some', Option.some_bind]
        exact foldl_rowSet _ width row ix
  · intro img iy
    rw [rowTask_eq_modify]
    cases rowFaults log maxIteration colors xmin xmax ymin ymax width height iy <;> simp
  · intro order₁ order₂ img hperm
    exact perm_foldlM _
      (fun a x y => rowTask_comm log maxIteration colors xmin xmax ymin ymax width height a x y)
      hperm img
  · intro xpos ypos escapeRadius order hperm
    rw [render_eq_window]
    exact perm_foldlM _
      (fun a x y => rowTask_comm log maxIteration colors _ _ _ _ width height a x y) hperm _

/-- Witness for `rowTask_independent`: in the 2 x 2 viewport of radius 1 around
`(3/2, 3/2)` all four pixels are written, with two different colors in row 0, and the
row tasks run in the order 1, 0 give the buffer of `render`. -/
theorem rowTask_independent_witness :
    [1, 0].foldlM
        (rowTask logStandIn 3 sixColors
          (viewWindow (3 / 2) (3 / 2) 1 2 2).1 (viewWindow (3 / 2) (3 / 2) 1 2 2).2.1
          (viewWindow (3 / 2) (3 / 2) 1 2 2).2.2.1 (viewWindow (3 / 2) (3 / 2) 1 2 2).2.2.2 2 2)
        (newRGBA 2 2)
      = render logStandIn (3 / 2) (3 / 2) 1 2 2 3 sixColors ∧
    render logStandIn (3 / 2) (3 / 2) 1 2 2 3 sixColors
      = some [[⟨41, 107, 243, 255⟩, ⟨237, 160, 27, 255⟩],
              [⟨237, 160, 27, 255⟩, ⟨237, 160, 27, 255⟩]] :=
  ⟨(rowTask_independent logStandIn 3 sixColors
      (viewWindow (3 / 2) (3 / 2) 1 2 2).1 (viewWindow (3 / 2) (3 / 2) 1 2 2).2.1
      (viewWindow (3 / 2) (3 / 2) 1 2 2).2.2.1 (viewWindow (3 / 2) (3 / 2) 1 2 2).2.2.2
      2 2).2.2.2.2 (3 / 2) (3 / 2) 1 [1, 0] (by decide),
   render_unit⟩

/-! ### Rounding to `float64` -/

/-- The rounded integer is not below the floor. -/
theorem roundHalfEven_floor_le (t : ℚ) : ⌊t⌋ ≤ roundHalfEven t := by
  unfold roundHalfEven
  simp only
  split_ifs <;> omega

/-- The rounded integer is at most one above the floor. -/
theorem roundHalfEven_le_floor_succ (t : ℚ) : roundHalfEven t ≤ ⌊t⌋ + 1 := by
  unfold roundHalfEven
  simp only
  split_ifs <;> omega

/-- An integer rounds to itself. -/
theorem roundHalfEven_intCast (n : Int) : roundHalfEven (n : ℚ) = n := by
  unfold roundHalfEven
  simp

/-- Rounding to the nearest integer is monotone. -/
theorem roundHalfEven_mono {t u : ℚ} (h : t ≤ u) : roundHalfEven t ≤ roundHalfEven u := by
  have hfl : ⌊t⌋ ≤ ⌊u⌋ := Int.floor_mono h
  rcases lt_or_eq_of_le hfl with hlt | heq
  · calc roundHalfEven t ≤ ⌊t⌋ + 1 := roundHalfEven_le_floor_succ t
      _ ≤ ⌊u⌋ := hlt
      _ ≤ roundHalfEven u := roundHalfEven_floor_le u
  · have hfrac : t - ⌊t⌋ ≤ u - ⌊u⌋ := by rw [heq]; linarith
    unfold roundHalfEven
    simp only
    rw [← heq]
    rw [← heq] at hfrac
    by_cases h1 : t - (⌊t⌋ : ℚ) < 1 / 2
    · rw [if_pos h1]
      split_ifs <;> omega
    · rw [if_neg h1]
      by_cases h2 : 1 / 2 < t - (⌊t⌋ : ℚ)
      · rw [if_pos h2]
        have h3 : ¬ (u - (⌊t⌋ : ℚ) < 1 / 2) := by linarith
        have h4 : 1 / 2 < u - (⌊t⌋ : ℚ) := by linarith
        rw [if_neg h3, if_pos h4]
      · rw [if_neg h2]
        have h3 : ¬ (u - (⌊t⌋ : ℚ) < 1 / 2) := by linarith
        rw [if_neg h3]
        by_cases h4 : 1 / 2 < u - (⌊t⌋ : ℚ)
        · rw [if_pos h4]
          split_ifs <;> omega
        · rw [if_neg h4]

/-- Rounding does not cross an integer above. -/
theorem roundHalfEven_le_of_le_intCast {t : ℚ} {n : Int} (h : t ≤ (n : ℚ)) :
    roundHalfEven t ≤ n := by
  have := roundHalfEven_mono h
  rwa [roundHalfEven_intCast] at this

/-- Rounding does not cross an integer below. -/
theorem intCast_le_roundHalfEven {t : ℚ} {n : Int} (h : (n : ℚ) ≤ t) :
    n ≤ roundHalfEven t := by
  have := roundHalfEven_mono h
  rwa [roundHalfEven_intCast] at this

/-- Powers of two are positive. -/
theorem two_zpow_pos (z : Int) : (0 : ℚ) < 2 ^ z := zpow_pos (by norm_num) z

/-- The binary exponent brackets a positive rational. -/
theorem log_two_bounds (q : ℚ) (hq : 0 < q) :
    (2 : ℚ) ^ (Int.log 2 q) ≤ q ∧ q < (2 : ℚ) ^ (Int.log 2 q + 1) := by
  have h1 := Int.zpow_log_le_self (b := 2) (r := q) (by norm_num) hq
  have h2 := Int.lt_zpow_succ_log_self (b := 2) (by norm_num) q
  simp only [Nat.cast_ofNat] at h1 h2
  exact ⟨h1, h2⟩

/-- The binary exponent is determined by its bracket. -/
theorem log_two_eq (q : ℚ) (k : Int) (h1 : (2 : ℚ) ^ k ≤ q) (h2 : q < (2 : ℚ) ^ (k + 1)) :
    Int.log 2 q = k := by
  have hq : 0 < q := lt_of_lt_of_le (two_zpow_pos k) h1
  have a := (Int.zpow_le_iff_le_log (b := 2) (by norm_num) (x := k) hq).mp
    (by simpa using h1)
  have b := (Int.lt_zpow_iff_log_lt (b := 2) (by norm_num) (x := k + 1) hq).mp
    (by simpa using h2)
  omega

/-- The scaled significand lies between `2^52` and `2^53`. -/
theorem scaled_bounds (q : ℚ) (hq : 0 < q) :
    (2 : ℚ) ^ (52 : Int) ≤ q / 2 ^ (Int.log 2 q - 52) ∧
    q / 2 ^ (Int.log 2 q - 52) < (2 : ℚ) ^ (53 : Int) := by
  obtain ⟨h1, h2⟩ := log_two_bounds q hq
  have hpos := two_zpow_pos (Int.log 2 q - 52)
  constructor
  · rw [le_div_iff₀ hpos, ← zpow_add₀ (by norm_num : (2 : ℚ) ≠ 0)]
    have : (52 : Int) + (Int.log 2 q - 52) = Int.log 2 q := by ring
    rw [this]
    exact h1
  · rw [div_lt_iff₀ hpos, ← zpow_add₀ (by norm_num : (2 : ℚ) ≠ 0)]
    have : (53 : Int) + (Int.log 2 q - 52) = Int.log 2 q + 1 := by ring
    rw [this]
    exact h2

/-- The rounded value stays in the binade of its argument. -/
theorem roundPos_bounds (q : ℚ) (hq : 0 < q) :
    (2 : ℚ) ^ (Int.log 2 q) ≤ roundPos q ∧ roundPos q ≤ (2 : ℚ) ^ (Int.log 2 q + 1) := by
  obtain ⟨h1, h2⟩ := scaled_bounds q hq
  have hpos := two_zpow_pos (Int.log 2 q - 52)
  have hlo : ((2 ^ 52 : Int) : ℚ) ≤ q / 2 ^ (Int.log 2 q - 52) := by
    have : ((2 ^ 52 : Int) : ℚ) = (2 : ℚ) ^ (52 : Int) := by norm_num
    rw [this]; exact h1
  have hhi : q / 2 ^ (Int.log 2 q - 52) ≤ ((2 ^ 53 : Int) : ℚ) := by
    have : ((2 ^ 53 : Int) : ℚ) = (2 : ℚ) ^ (53 : Int) := by norm_num
    rw [this]; exact le_of_lt h2
  have a := intCast_le_roundHalfEven hlo
  have b := roundHalfEven_le_of_le_intCast hhi
  have a' : (2 : ℚ) ^ (52 : Int) ≤ (roundHalfEven (q / 2 ^ (Int.log 2 q - 52)) : ℚ) := by
    have : ((2 ^ 52 : Int) : ℚ) ≤ (roundHalfEven (q / 2 ^ (Int.log 2 q - 52)) : ℚ) := by
      exact_mod_cast a
    have e : ((2 ^ 52 : Int) : ℚ) = (2 : ℚ) ^ (52 : Int) := by norm_num
    rwa [e] at this
  have b' : (roundHalfEven (q / 2 ^ (Int.log 2 q - 52)) : ℚ) ≤ (2 : ℚ) ^ (53 : Int) := by
    have : (roundHalfEven (q / 2 ^ (Int.log 2 q - 52)) : ℚ) ≤ ((2 ^ 53 : Int) : ℚ) := by
      exact_mod_cast b
    have e : ((2 ^ 53 : Int) : ℚ) = (2 : ℚ) ^ (53 : Int) := by norm_num
    rwa [e] at this
  unfold roundPos
  simp only
  constructor
  · have e : (2 : ℚ) ^ (Int.log 2 q) = 2 ^ (52 : Int) * 2 ^ (Int.log 2 q - 52) := by
      rw [← zpow_add₀ (by norm_num : (2 : ℚ) ≠ 0)]; congr 1; ring
    rw [e]
    exact mul_le_mul_of_nonneg_right a' (le_of_lt hpos)
  · have e : (2 : ℚ) ^ (Int.log 2 q + 1) = 2 ^ (53 : Int) * 2 ^ (Int.log 2 q - 52) := by
      rw [← zpow_add₀ (by norm_num : (2 : ℚ) ≠ 0)]; congr 1; ring
    rw [e]
    exact mul_le_mul_of_nonneg_right b' (le_of_lt hpos)

/-- Rounding of positive rationals is monotone. -/
theorem roundPos_mono {q p : ℚ} (hq : 0 < q) (h : q ≤ p) : roundPos q ≤ roundPos p := by
  have hp : 0 < p := lt_of_lt_of_le hq h
  have hlog : Int.log 2 q ≤ Int.log 2 p := Int.log_mono_right hq h
  rcases lt_or_eq_of_le hlog with hlt | heq
  · calc roundPos q ≤ (2 : ℚ) ^ (Int.log 2 q + 1) := (roundPos_bounds q hq).2
      _ ≤ (2 : ℚ) ^ (Int.log 2 p) := zpow_le_zpow_right₀ (by norm_num) (by omega)
      _ ≤ roundPos p := (roundPos_bounds p hp).1
  · unfold roundPos
    simp only
    rw [← heq]
    have hpos := two_zpow_pos (Int.log 2 q - 52)
    apply mul_le_mul_of_nonneg_right _ (le_of_lt hpos)
    have : roundHalfEven (q / 2 ^ (Int.log 2 q - 52)) ≤ roundHalfEven (p / 2 ^ (Int.log 2 q - 52)) :=
      roundHalfEven_mono (div_le_div_of_nonneg_right h (le_of_lt hpos))
    exact_mod_cast this

/-- The rounded value of a positive rational is positive. -/
theorem roundPos_pos (q : ℚ) (hq : 0 < q) : 0 < roundPos q :=
  lt_of_lt_of_le (two_zpow_pos _) (roundPos_bounds q hq).1

/-- Rounding to `float64` is monotone on non-negative rationals. -/
theorem roundF64_mono_nonneg {q p : ℚ} (hq : 0 ≤ q) (h : q ≤ p) : roundF64 q ≤ roundF64 p := by
  rcases eq_or_lt_of_le hq with h0 | hpos
  · rw [← h0]
    have hp : 0 ≤ p := le_trans hq h
    rcases eq_or_lt_of_le hp with hp0 | hppos
    · rw [← hp0]
    · simp only [roundF64, if_true, if_neg (ne_of_gt hppos), if_pos hppos]
      exact le_of_lt (roundPos_pos p hppos)
  · have hp : 0 < p := lt_of_lt_of_le hpos h
    simp only [roundF64, if_neg (ne_of_gt hpos), if_pos hpos, if_neg (ne_of_gt hp), if_pos hp]
    exact roundPos_mono hpos h

/-- A positive rational `n * 2^z` with `n < 2^53` is its own rounding. -/
theorem roundPos_repr (n : Nat) (z : Int) (hn0 : 0 < n) (hn : n < 2 ^ 53) :
    roundPos ((n : ℚ) * 2 ^ z) = (n : ℚ) * 2 ^ z := by
  have h2 : (2 : ℚ) ≠ 0 := by norm_num
  have hL1 : 2 ^ Nat.log 2 n ≤ n := Nat.pow_log_le_self 2 (by omega)
  have hL2 : n < 2 ^ (Nat.log 2 n + 1) := Nat.lt_pow_succ_log_self (by norm_num) n
  have hL : Nat.log 2 n ≤ 52 := by
    by_contra hc
    have : 2 ^ 53 ≤ 2 ^ Nat.log 2 n := Nat.pow_le_pow_right (by norm_num) (by omega)
    omega
  have hlog : Int.log 2 ((n : ℚ) * 2 ^ z) = (Nat.log 2 n : Int) + z := by
    apply log_two_eq
    · rw [zpow_add₀ h2]
      apply mul_le_mul_of_nonneg_right _ (le_of_lt (two_zpow_pos z))
      rw [zpow_natCast]
      exact_mod_cast hL1
    · have : ((Nat.log 2 n : Int) + z + 1) = ((Nat.log 2 n + 1 : Nat) : Int) + z := by
        push_cast; ring
      rw [this, zpow_add₀ h2]
      apply mul_lt_mul_of_pos_right _ (two_zpow_pos z)
      rw [zpow_natCast]
      exact_mod_cast hL2
  unfold roundPos
  simp only
  rw [hlog]
  have hscale : (n : ℚ) * 2 ^ z / 2 ^ ((Nat.log 2 n : Int) + z - 52)
      = (((n * 2 ^ (52 - Nat.log 2 n) : Nat) : Int) : ℚ) := by
    have e : ((Nat.log 2 n : Int) + z - 52) = z - ((52 - Nat.log 2 n : Nat) : Int) := by
      omega
    rw [e, zpow_sub₀ h2, zpow_natCast]
    push_cast
    field_simp
    ring
  rw [hscale, roundHalfEven_intCast, ← hscale]
  field_simp

/-- Every rational `n * 2^z` with `n < 2^53` is a `float64` value. -/
theorem roundF64_repr (n : Nat) (z : Int) (hn : n < 2 ^ 53) :
    roundF64 ((n : ℚ) * 2 ^ z) = (n : ℚ) * 2 ^ z := by
  rcases Nat.eq_zero_or_pos n with h0 | hpos
  · subst h0
    simp [roundF64]
  · have hq : (0 : ℚ) < (n : ℚ) * 2 ^ z := mul_pos (by exact_mod_cast hpos) (two_zpow_pos z)
    simp only [roundF64, if_neg (ne_of_gt hq), if_pos hq]
    exact roundPos_repr n z hpos hn

/-- Naturals below `2^53` are `float64` values. -/
theorem roundF64_natCast (n : Nat) (hn : n < 2 ^ 53) : roundF64 (n : ℚ) = n := by
  have := roundF64_repr n 0 hn
  simpa using this

/-- Zero rounds to zero. -/
theorem roundF64_zero : roundF64 0 = 0 := by simp [roundF64]

/-- Rounding down, below the midpoint. -/
theorem roundHalfEven_down (t : ℚ) (f : Int) (h1 : (f : ℚ) ≤ t) (h2 : t < (f : ℚ) + 1 / 2) :
    roundHalfEven t = f := by
  have hfl : ⌊t⌋ = f := by
    rw [Int.floor_eq_iff]
    exact ⟨h1, by linarith⟩
  unfold roundHalfEven
  simp only
  rw [hfl, if_pos (by linarith)]

/-- Rounding up, above the midpoint. -/
theorem roundHalfEven_up (t : ℚ) (f : Int) (h1 : (f : ℚ) + 1 / 2 < t) (h2 : t < (f : ℚ) + 1) :
    roundHalfEven t = f + 1 := by
  have hfl : ⌊t⌋ = f := by
    rw [Int.floor_eq_iff]
    exact ⟨by linarith, h2⟩
  unfold roundHalfEven
  simp only
  rw [hfl, if_neg (by linarith), if_pos (by linarith)]

/-- The `float64` value of a rational from its exponent and rounded significand. -/
theorem roundF64_eval (q : ℚ) (e m : Int) (hlo : (2 : ℚ) ^ (52 + e) ≤ q)
    (hhi : q < (2 : ℚ) ^ (52 + e + 1)) (hm : roundHalfEven (q / 2 ^ e) = m) :
    roundF64 q = (m : ℚ) * 2 ^ e := by
  have hq : 0 < q := lt_of_lt_of_le (two_zpow_pos _) hlo
  have hlog : Int.log 2 q = 52 + e := log_two_eq q _ hlo hhi
  simp only [roundF64, if_neg (ne_of_gt hq), if_pos hq, roundPos]
  rw [hlog]
  have : (52 : Int) + e - 52 = e := by ring
  rw [this, hm]

/-! ### Step resolution with rounded operations -/

/-- With `rnd = id` the rounded step-resolution loop is the exact one. -/
theorem resolveLoopR_id (len : Nat) :
    ∀ (stops : List Color) (index : Nat) (steps : List ℚ) (cols : List Nat),
      resolveLoopR id len stops index steps cols = resolveLoop len stops index steps cols := by
  intro stops
  induction stops with
  | nil => intro index steps cols; rfl
  | cons col rest ih =>
    intro index steps cols
    simp only [resolveLoopR, resolveLoop, id]
    rw [ih]

/-- The steps appended by the rounded step-resolution loop, stop by stop. -/
theorem resolveLoopR_fst (rnd : ℚ → ℚ) (len : Nat) :
    ∀ (stops : List Color) (index : Nat) (steps : List ℚ) (cols : List Nat),
      (resolveLoopR rnd len stops index steps cols).1
        = steps ++ (stops.enumFrom index).map
            (fun p => if p.2.Step = 0 ∧ p.1 ≠ 0 then autoStepR rnd len p.1 else p.2.Step) := by
  intro stops
  induction stops with
  | nil => intro index steps cols; simp [resolveLoopR]
  | cons col rest ih =>
    intro index steps cols
    simp only [resolveLoopR, List.enumFrom_cons, List.map_cons]
    rw [ih]
    by_cases h : col.Step = 0 ∧ index ≠ 0
    · simp [h, autoStepR]
    · simp [h]

/-- The packed colors appended by the rounded step-resolution loop: no rounding is
involved. -/
theorem resolveLoopR_snd (rnd : ℚ → ℚ) (len : Nat) :
    ∀ (stops : List Color) (index : Nat) (steps : List ℚ) (cols : List Nat),
      (resolveLoopR rnd len stops index steps cols).2
        = cols ++ stops.map (fun c => rgbaToUint c.Color) := by
  intro stops
  induction stops with
  | nil => intro index steps cols; simp [resolveLoopR]
  | cons col rest ih =>
    intro index steps cols
    simp only [resolveLoopR, List.map_cons]
    rw [ih]
    simp [rgbaToUint]

/-- With `rnd = id` the rounded resolved steps are the exact ones. -/
theorem resolveStepsR_id (stops : List Color) : resolveStepsR id stops = resolveSteps stops := by
  rw [resolveStepsR, resolveSteps, resolveLoopR_id]

/-- The rounded auto step under exact arithmetic. -/
theorem autoStepR_id (len index : Nat) : autoStepR id len index = autoStep len index := rfl

/-- Steps appended for a run of stops that all carry the auto sentinel, with rounded
operations. -/
theorem map_enumFrom_autoR (rnd : ℚ → ℚ) (len : Nat) :
    ∀ (stops : List Color) (index : Nat), (∀ c ∈ stops, c.Step = 0) →
      (stops.enumFrom index).map
          (fun p => if p.2.Step = 0 ∧ p.1 ≠ 0 then autoStepR rnd len p.1 else p.2.Step)
        = (List.range' index stops.length).map
            (fun k => if k = 0 then 0 else autoStepR rnd len k) := by
  intro stops
  induction stops with
  | nil => intro index _; simp
  | cons c rest ih =>
    intro index hauto
    have hc : c.Step = 0 := hauto c (by simp)
    have hrest : ∀ d ∈ rest, d.Step = 0 := fun d hd => hauto d (by simp [hd])
    rw [List.enumFrom_cons, List.map_cons, ih (index + 1) hrest, List.length_cons,
      List.range'_succ, List.map_cons]
    by_cases h0 : index = 0
    · simp [h0, hc]
    · simp [h0, hc]

/-- The rounded resolved steps of a table whose stops all carry the auto sentinel. -/
theorem resolveStepsR_of_auto (rnd : ℚ → ℚ) (stops : List Color)
    (hauto : ∀ c ∈ stops, c.Step = 0) :
    resolveStepsR rnd stops
      = (List.range stops.length).map
          (fun k => if k = 0 then 0 else autoStepR rnd stops.length k) := by
  rw [resolveStepsR, resolveLoopR_fst, List.nil_append, map_enumFrom_autoR _ _ _ _ hauto,
    List.range_eq_range']

/-- Truncation toward zero is monotone on non-negative values. -/
theorem truncInt_mono_nonneg {a b : ℚ} (ha : 0 ≤ a) (h : a ≤ b) : truncInt a ≤ truncInt b := by
  rw [truncInt, truncInt, if_pos ha, if_pos (le_trans ha h)]
  exact Int.floor_mono h

/-- Truncation of a non-negative value is non-negative. -/
theorem truncInt_nonneg {a : ℚ} (ha : 0 ≤ a) : 0 ≤ truncInt a := by
  rw [truncInt, if_pos ha]
  exact Int.floor_nonneg.mpr ha

/-- The scaled quotient `float64(int(stepRatio*100))` of a rounded auto step is
non-negative and does not decrease with the position. -/
theorem autoStepR_scaled (rnd : ℚ → ℚ) (hmono : ∀ a b : ℚ, 0 ≤ a → a ≤ b → rnd a ≤ rnd b)
    (h0 : rnd 0 = 0) (len : Nat) {j k : Nat} (h : j ≤ k) :
    0 ≤ truncInt (rnd (rnd (((j + 1 : Nat) : ℚ) / (len : ℚ)) * 100)) ∧
    truncInt (rnd (rnd (((j + 1 : Nat) : ℚ) / (len : ℚ)) * 100))
      ≤ truncInt (rnd (rnd (((k + 1 : Nat) : ℚ) / (len : ℚ)) * 100)) := by
  have hnn : ∀ a : ℚ, 0 ≤ a → 0 ≤ rnd a := fun a ha => by
    have := hmono 0 a le_rfl ha
    rwa [h0] at this
  have hq0 : (0 : ℚ) ≤ ((j + 1 : Nat) : ℚ) / (len : ℚ) := by positivity
  have hq : ((j + 1 : Nat) : ℚ) / (len : ℚ) ≤ ((k + 1 : Nat) : ℚ) / (len : ℚ) := by
    apply div_le_div_of_nonneg_right _ (by positivity)
    exact_mod_cast Nat.succ_le_succ h
  have hr0 : 0 ≤ rnd (((j + 1 : Nat) : ℚ) / (len : ℚ)) := hnn _ hq0
  have hr : rnd (((j + 1 : Nat) : ℚ) / (len : ℚ)) ≤ rnd (((k + 1 : Nat) : ℚ) / (len : ℚ)) :=
    hmono _ _ hq0 hq
  have hp0 : 0 ≤ rnd (((j + 1 : Nat) : ℚ) / (len : ℚ)) * 100 := by positivity
  have hp : rnd (((j + 1 : Nat) : ℚ) / (len : ℚ)) * 100
      ≤ rnd (((k + 1 : Nat) : ℚ) / (len : ℚ)) * 100 := by linarith
  exact ⟨truncInt_nonneg (hnn _ hp0), truncInt_mono_nonneg (hnn _ hp0) (hmono _ _ hp0 hp)⟩

/-- Rounded auto steps are non-negative. -/
theorem autoStepR_nonneg (rnd : ℚ → ℚ) (hmono : ∀ a b : ℚ, 0 ≤ a → a ≤ b → rnd a ≤ rnd b)
    (h0 : rnd 0 = 0) (len index : Nat) : 0 ≤ autoStepR rnd len index := by
  have h := (autoStepR_scaled rnd hmono h0 len (le_refl index)).1
  have hq : (0 : ℚ) ≤ (truncInt (rnd (rnd (((index + 1 : Nat) : ℚ) / (len : ℚ)) * 100)) : ℚ) / 100 := by
    have : (0 : ℚ) ≤ (truncInt (rnd (rnd (((index + 1 : Nat) : ℚ) / (len : ℚ)) * 100)) : ℚ) := by
      exact_mod_cast h
    positivity
  have := hmono 0 _ le_rfl hq
  rwa [h0] at this

/-- Rounded auto steps do not decrease with the position. -/
theorem autoStepR_mono (rnd : ℚ → ℚ) (hmono : ∀ a b : ℚ, 0 ≤ a → a ≤ b → rnd a ≤ rnd b)
    (h0 : rnd 0 = 0) (len : Nat) {j k : Nat} (h : j ≤ k) :
    autoStepR rnd len j ≤ autoStepR rnd len k := by
  obtain ⟨hnn, hle⟩ := autoStepR_scaled rnd hmono h0 len h
  have hnnq : (0 : ℚ) ≤ (truncInt (rnd (rnd (((j + 1 : Nat) : ℚ) / (len : ℚ)) * 100)) : ℚ) := by
    exact_mod_cast hnn
  have hleq : (truncInt (rnd (rnd (((j + 1 : Nat) : ℚ) / (len : ℚ)) * 100)) : ℚ)
      ≤ (truncInt (rnd (rnd (((k + 1 : Nat) : ℚ) / (len : ℚ)) * 100)) : ℚ) := by
    exact_mod_cast hle
  apply hmono
  · positivity
  · linarith

/-- The rounded auto step of the last position is 1. -/
theorem autoStepR_last (rnd : ℚ → ℚ) (h1 : rnd 1 = 1) (h100 : rnd 100 = 100) (len : Nat)
    (hlen : 1 ≤ len) : autoStepR rnd len (len - 1) = 1 := by
  have hn : len - 1 + 1 = len := by omega
  have hlen0 : (len : ℚ) ≠ 0 := by
    have : (0 : ℚ) < (len : ℚ) := by exact_mod_cast hlen
    exact ne_of_gt this
  have ht : truncInt (100 : ℚ) = 100 := by
    rw [truncInt, if_pos (by norm_num)]
    exact Int.floor_eq_iff.mpr ⟨by norm_num, by norm_num⟩
  rw [autoStepR, hn, div_self hlen0, h1, one_mul, h100, ht]
  norm_num
  exact h1

/-- A rounded auto step whose quotient and scaled quotient are computed without error
is the rounding of `⌊100 (index + 1) / len⌋ / 100`. -/
theorem autoStepR_exact (rnd : ℚ → ℚ) (len index : Nat)
    (hq : rnd (((index + 1 : Nat) : ℚ) / (len : ℚ)) = ((index + 1 : Nat) : ℚ) / (len : ℚ))
    (hp : rnd (((index + 1 : Nat) : ℚ) / (len : ℚ) * 100)
      = ((index + 1 : Nat) : ℚ) / (len : ℚ) * 100) :
    autoStepR rnd len index
      = rnd (((⌊(100 * ((index : ℚ) + 1)) / (len : ℚ)⌋ : Int) : ℚ) / 100) := by
  have h := autoStep_floor len index
  rw [autoStep] at h
  have h' : (truncInt (((index + 1 : Nat) : ℚ) / (len : ℚ) * 100) : ℚ)
      = ((⌊(100 * ((index : ℚ) + 1)) / (len : ℚ)⌋ : Int) : ℚ) := by
    have h100 : (100 : ℚ) ≠ 0 := by norm_num
    exact (div_left_inj' h100).mp h
  rw [autoStepR, hq, hp, h']

/-- The `float64` chain of the auto step at position 28 of 50: the quotient `29/50` is
rounded down, its product with 100 is `58 - 2^-47`, and the truncation gives 57. -/
theorem autoStepR_fifty : autoStepR roundF64 50 28 = roundF64 (57 / 100) := by
  have e1 : roundF64 (29 / 50) = 5224175567749775 / 2 ^ 53 := by
    rw [roundF64_eval (29 / 50) (-53) 5224175567749775 (by norm_num) (by norm_num)
      (roundHalfEven_down _ _ (by norm_num) (by norm_num))]
    norm_num
  have e2 : roundF64 (5224175567749775 / 2 ^ 53 * 100) = 8162774324609023 / 2 ^ 47 := by
    rw [roundF64_eval (5224175567749775 / 2 ^ 53 * 100) (-47) 8162774324609023 (by norm_num)
      (by norm_num) (roundHalfEven_down _ _ (by norm_num) (by norm_num))]
    norm_num
  have e3 : truncInt ((8162774324609023 : ℚ) / 2 ^ 47) = 57 := by
    rw [truncInt, if_pos (by norm_num)]
    exact Int.floor_eq_iff.mpr ⟨by norm_num, by norm_num⟩
  have ha : (((28 + 1 : Nat) : ℚ)) / ((50 : Nat) : ℚ) = 29 / 50 := by norm_num
  rw [autoStepR, ha, e1, e2, e3]
  norm_num

/-- The `float64` value of `57/100` is below `58/100`. -/
theorem roundF64_fifty_seven : roundF64 (57 / 100) = 5134103575202365 / 2 ^ 53 := by
  rw [roundF64_eval (57 / 100) (-53) 5134103575202365 (by norm_num) (by norm_num)
    (roundHalfEven_down _ _ (by norm_num) (by norm_num))]
  norm_num

/-- A quotient of a natural below `2^53` by a power of two is a `float64` value. -/
theorem roundF64_div_pow (n m : Nat) (hn : n < 2 ^ 53) :
    roundF64 ((n : ℚ) / 2 ^ m) = (n : ℚ) / 2 ^ m := by
  have h := roundF64_repr n (-(m : Int)) hn
  rw [zpow_neg, zpow_natCast, ← div_eq_mul_inv] at h
  exact h

/-- All stops of the default table carry the auto sentinel. -/
theorem lsdcolors_auto : ∀ c ∈ lsdcolors, c.Step = 0 := by
  intro c hc
  simp only [lsdcolors, List.mem_cons, List.mem_singleton, List.not_mem_nil, or_false] at hc
  rcases hc with h | h | h | h | h | h | h | h | h | h | h | h | h | h | h | h <;> rw [h]

/-- C7 (as stated) fails for the `float64` arithmetic of the program: in a table of 50
stops that all carry the auto sentinel the quotient `29/50` is rounded down, its product
with 100 is `58 - 2^-47`, the conversion to `int` gives 57, and the resolved step of
position 28 is the `float64` value of `0.57`, which is neither `floor(100*29/50)/100 =
0.58` nor its `float64` value. -/
theorem resolveSteps_auto_counterexample :
    fiftyStops.length = 50 ∧ (∀ c ∈ fiftyStops, c.Step = 0) ∧
    (resolveStepsR roundF64 fiftyStops)[28]? = some (roundF64 (57 / 100)) ∧
    ((⌊(100 * ((28 : ℚ) + 1)) / (fiftyStops.length : ℚ)⌋ : Int) : ℚ) / 100 = 58 / 100 ∧
    roundF64 (57 / 100) < 58 / 100 ∧
    roundF64 (57 / 100) < roundF64 (58 / 100) := by
  have hlen : fiftyStops.length = 50 := by simp [fiftyStops]
  have hauto : ∀ c ∈ fiftyStops, c.Step = 0 := by
    intro c hc
    rw [fiftyStops] at hc
    rw [List.eq_of_mem_replicate hc]
  have e58 : roundF64 (58 / 100) = 5224175567749775 / 2 ^ 53 := by
    rw [roundF64_eval (58 / 100) (-53) 5224175567749775 (by norm_num) (by norm_num)
      (roundHalfEven_down _ _ (by norm_num) (by norm_num))]
    norm_num
  refine ⟨hlen, hauto, ?_, ?_, ?_, ?_⟩
  · rw [resolveStepsR_of_auto roundF64 fiftyStops hauto, List.getElem?_map, hlen,
      List.getElem?_range (by norm_num)]
    simp only [Option.map_some']
    rw [if_neg (by norm_num), autoStepR_fifty]
  · rw [hlen]
    have : ⌊(100 * ((28 : ℚ) + 1)) / ((50 : Nat) : ℚ)⌋ = 58 := by
      norm_num
    rw [this]
    norm_num
  · rw [roundF64_fifty_seven]
    norm_num
  · rw [roundF64_fifty_seven, e58]
    norm_num

/-- C7 (amended): for every stop list of length `n ≥ 1` whose stops all carry the auto
sentinel `Step = 0`, and every rounding `rnd` of the `float64` operations that is
monotone on non-negative values and leaves 0, 1 and 100 unchanged (exact arithmetic and
binary64 are such roundings): `resolved[0] = 0`; for `k ≥ 1`, `resolved[k]` is
`float64(int(stepRatio*100))/100` with `stepRatio = float64(k+1)/float64(n)`, which is
the rounding of `floor(100 (k+1) / n) / 100` whenever the quotient and its product with
100 are computed without error; the resolved steps are non-decreasing in stop order;
for `n ≥ 2` the last resolved step is exactly 1; and under exact arithmetic
`resolved[k] = floor(100 (k+1) / n) / 100` for `k ≥ 1`. -/
theorem resolveSteps_auto (rnd : ℚ → ℚ)
    (hmono : ∀ a b : ℚ, 0 ≤ a → a ≤ b → rnd a ≤ rnd b)
    (h0 : rnd 0 = 0) (h1 : rnd 1 = 1) (h100 : rnd 100 = 100)
    (stops : List Color) (hne : 1 ≤ stops.length) (hauto : ∀ c ∈ stops, c.Step = 0) :
    (resolveStepsR rnd stops)[0]? = some 0 ∧
    (∀ k, 1 ≤ k → k < stops.length →
      (resolveStepsR rnd stops)[k]?
        = some (rnd ((truncInt
            (rnd (rnd (((k + 1 : Nat) : ℚ) / (stops.length : ℚ)) * 100)) : ℚ) / 100)) ∧
      (rnd (((k + 1 : Nat) : ℚ) / (stops.length : ℚ))
          = ((k + 1 : Nat) : ℚ) / (stops.length : ℚ) →
        rnd (((k + 1 : Nat) : ℚ) / (stops.length : ℚ) * 100)
          = ((k + 1 : Nat) : ℚ) / (stops.length : ℚ) * 100 →
        (resolveStepsR rnd stops)[k]?
          = some (rnd (((⌊(100 * ((k : ℚ) + 1)) / (stops.length : ℚ)⌋ : Int) : ℚ) / 100)))) ∧
    (resolveStepsR rnd stops).Pairwise (· ≤ ·) ∧
    (2 ≤ stops.length → (resolveStepsR rnd stops)[stops.length - 1]? = some 1) ∧
    resolveStepsR id stops = resolveSteps stops ∧
    (∀ k, 1 ≤ k → k < stops.length →
      (resolveSteps stops)[k]?
        = some (((⌊(100 * ((k : ℚ) + 1)) / (stops.length : ℚ)⌋ : Int) : ℚ) / 100)) := by
  have hk : ∀ k, k < stops.length →
      (resolveStepsR rnd stops)[k]?
        = some (if k = 0 then 0 else autoStepR rnd stops.length k) := by
    intro k hk
    rw [resolveStepsR_of_auto rnd stops hauto, List.getElem?_map, List.getElem?_range hk]
    rfl
  refine ⟨?_, ?_, ?_, ?_, resolveStepsR_id stops, ?_⟩
  · rw [hk 0 (by omega)]
    rfl
  · intro k hk1 hk2
    refine ⟨?_, ?_⟩
    · rw [hk k hk2, if_neg (by omega)]
      rfl
    · intro hq hp
      rw [hk k hk2, if_neg (by omega), autoStepR_exact rnd _ _ hq hp]
  · rw [resolveStepsR_of_auto rnd stops hauto, List.pairwise_map]
    refine List.Pairwise.imp ?_ (List.pairwise_lt_range stops.length)
    intro a b hab
    by_cases ha : a = 0
    · have hb : b ≠ 0 := by omega
      rw [if_pos ha, if_neg hb]
      exact autoStepR_nonneg rnd hmono h0 _ _
    · have hb : b ≠ 0 := by omega
      rw [if_neg ha, if_neg hb]
      exact autoStepR_mono rnd hmono h0 _ (le_of_lt hab)
  · intro h2
    rw [hk _ (by omega), if_neg (by omega), autoStepR_last rnd h1 h100 _ hne]
  · intro k hk1 hk2
    rw [resolveSteps_of_auto stops hauto, List.getElem?_map, List.getElem?_range hk2]
    simp only [Option.map_some']
    rw [if_neg (by omega), autoStep_floor]

/-- Witness for `resolveSteps_auto` at the default 16-stop table with binary64
rounding; there every quotient `(k+1)/16` and its product with 100 are `float64`
values, so each resolved step is the `float64` value of `floor(100 (k+1) / 16) / 100`. -/
theorem resolveSteps_auto_witness :
    (resolveStepsR roundF64 lsdcolors)[0]? = some 0 ∧
    (∀ k, 1 ≤ k → k < lsdcolors.length →
      (resolveStepsR roundF64 lsdcolors)[k]?
        = some (roundF64 (((⌊(100 * ((k : ℚ) + 1)) / (lsdcolors.length : ℚ)⌋ : Int) : ℚ)
            / 100))) ∧
    (resolveStepsR roundF64 lsdcolors).Pairwise (· ≤ ·) ∧
    (resolveStepsR roundF64 lsdcolors)[lsdcolors.length - 1]? = some 1 := by
  have h := resolveSteps_auto roundF64 (fun a b ha hab => roundF64_mono_nonneg ha hab)
    roundF64_zero (by simpa using roundF64_natCast 1 (by norm_num))
    (by simpa using roundF64_natCast 100 (by norm_num)) lsdcolors (by decide) lsdcolors_auto
  have hlen : lsdcolors.length = 16 := by decide
  refine ⟨h.1, ?_, h.2.2.1, h.2.2.2.1 (by decide)⟩
  intro k hk1 hk2
  rw [hlen] at hk2
  have e16 : ((lsdcolors.length : Nat) : ℚ) = 2 ^ 4 := by rw [hlen]; norm_num
  have hq : ((k + 1 : Nat) : ℚ) / (lsdcolors.length : ℚ) * 100
      = ((100 * (k + 1) : Nat) : ℚ) / 2 ^ 4 := by
    rw [e16]
    push_cast
    ring
  refine (h.2.1 k hk1 (by rw [hlen]; exact hk2)).2 ?_ ?_
  · rw [e16]
    exact roundF64_div_pow _ 4 (by norm_num; omega)
  · rw [hq]
    exact roundF64_div_pow _ 4 (by norm_num; omega)

/-! ### The palette loops with rounded operations -/

/-- The rounded inner loop appends, for every bracket that holds the grid point, the
truncated rounded cosine interpolation of the two packed colors, higher stop first. -/
theorem bracketLoopR_eq (rnd : ℚ → ℚ) (cosPi : ℚ → ℚ) (steps : List ℚ) (cols : List Nat)
    (len : Nat) (i : ℚ) (interpolated : List Nat) :
    bracketLoopR rnd cosPi steps cols len i interpolated
      = interpolated ++ (bracketsAt steps len i).map (fun j =>
          toUint32 (cosineInterpolationR rnd cosPi (cols.getD (j + 1) 0 : ℚ)
            (cols.getD j 0 : ℚ)
            (rnd (rnd (i - steps.getD j 0) / rnd (steps.getD (j + 1) 0 - steps.getD j 0))))) := by
  unfold bracketLoopR bracketsAt
  generalize List.range (len - 1) = l
  induction l generalizing interpolated with
  | nil => simp
  | cons j rest ih =>
    simp only [List.foldl_cons]
    rw [ih]
    by_cases h : i ≥ steps.getD j 0 ∧ i < steps.getD (j + 1) 0
    · have hd : decide (i ≥ steps.getD j 0 ∧ i < steps.getD (j + 1) 0) = true :=
        decide_eq_true h
      rw [if_pos h]
      simp only [List.filter_cons, hd, if_true, List.map_cons, List.append_assoc,
        List.singleton_append]
    · have hd : decide (i ≥ steps.getD j 0 ∧ i < steps.getD (j + 1) 0) = false :=
        decide_eq_false h
      rw [if_neg h]
      simp only [List.filter_cons, hd, Bool.false_eq_true, if_false]

/-- The rounded grid loop runs the inner loop at the visited grid points, in order. -/
theorem gridLoopR_eq_visits (rnd : ℚ → ℚ) (cosPi : ℚ → ℚ) (steps : List ℚ) (cols : List Nat)
    (len : Nat) (factor : ℚ) :
    ∀ (fuel : Nat) (i : ℚ) (acc : List Nat),
      gridLoopR rnd cosPi steps cols len factor fuel i acc
        = (gridVisitsR rnd factor fuel i).map
            (fun pts => pts.foldl (fun a p => bracketLoopR rnd cosPi steps cols len p a) acc) := by
  intro fuel
  induction fuel with
  | zero =>
    intro i acc
    by_cases hi : i ≤ 1
    · simp [gridLoopR, gridVisitsR, hi]
    · simp [gridLoopR, gridVisitsR, hi]
  | succ f ih =>
    intro i acc
    by_cases hi : i ≤ 1
    · simp only [gridLoopR, gridVisitsR, if_pos hi]
      rw [ih]
      cases gridVisitsR rnd factor f (rnd (i + factor)) with
      | none => rfl
      | some rest => rfl
    · simp [gridLoopR, gridVisitsR, hi]

/-- Running the rounded inner loop over a list of grid points appends their entries in
order. -/
theorem foldl_bracketLoopR (rnd : ℚ → ℚ) (cosPi : ℚ → ℚ) (steps : List ℚ) (cols : List Nat)
    (len : Nat) :
    ∀ (pts : List ℚ) (acc : List Nat),
      pts.foldl (fun a p => bracketLoopR rnd cosPi steps cols len p a) acc
        = acc ++ pts.flatMap (fun i => (bracketsAt steps len i).map (fun j =>
            toUint32 (cosineInterpolationR rnd cosPi (cols.getD (j + 1) 0 : ℚ)
              (cols.getD j 0 : ℚ)
              (rnd (rnd (i - steps.getD j 0)
                / rnd (steps.getD (j + 1) 0 - steps.getD j 0)))))) := by
  intro pts
  induction pts with
  | nil => intro acc; simp
  | cons p rest ih =>
    intro acc
    rw [List.foldl_cons, ih, bracketLoopR_eq, List.flatMap_cons, List.append_assoc]

/-- The rounded palette builder in terms of the resolved lists: the length check of
line 112 always passes, and the final loop unpacks every interpolated value. -/
theorem interpolateColorsR_eq (rnd : ℚ → ℚ) (cosPi : ℚ → ℚ) (stops : List Color) (fuel : Nat)
    (N : ℚ) :
    interpolateColorsR rnd cosPi stops fuel N
      = (gridLoopR rnd cosPi (resolveStepsR rnd stops) (resolveCols stops) stops.length
          (rnd (1 / N)) fuel 0 []).map (List.map uint32ToRgba) := by
  have h1 : stops.length = (resolveLoopR rnd stops.length stops 0 [] []).1.length := by
    simp [resolveLoopR_fst]
  have h3 : (resolveLoopR rnd stops.length stops 0 [] []).2 = resolveCols stops := by
    rw [resolveLoopR_snd, resolveCols_eq, List.nil_append]
  have hc : stops.length = (resolveCols stops).length := (resolve_length stops).2.symm
  unfold interpolateColorsR resolveStepsR
  simp only [← h1, h3, ← hc, and_self, if_true]
  rfl

/-- The rounded palette as the list of the specification's entries over the visited grid
points. -/
theorem interpolateColorsR_flatMap (rnd : ℚ → ℚ) (cosPi : ℚ → ℚ) (stops : List Color)
    (N : ℚ) (fuel : Nat) (pts : List ℚ)
    (hpts : gridVisitsR rnd (rnd (1 / N)) fuel 0 = some pts) :
    interpolateColorsR rnd cosPi stops fuel N
      = some (pts.flatMap (fun i =>
          (bracketsAt (resolveStepsR rnd stops) stops.length i).map
            (blendEntryR rnd cosPi (resolveStepsR rnd stops) (resolveCols stops) i))) := by
  rw [interpolateColorsR_eq, gridLoopR_eq_visits, hpts, Option.map_some', Option.map_some',
    foldl_bracketLoopR, List.nil_append]
  congr 1
  clear hpts
  induction pts with
  | nil => rfl
  | cons p rest ih =>
    rw [List.flatMap_cons, List.flatMap_cons, List.map_append, ih, List.map_map]
    rfl

/-- With `rnd = id` the rounded grid loop is the exact one. -/
theorem gridLoopR_id (cosPi : ℚ → ℚ) (steps : List ℚ) (cols : List Nat) (len : Nat)
    (factor : ℚ) :
    ∀ (fuel : Nat) (i : ℚ) (acc : List Nat),
      gridLoopR id cosPi steps cols len factor fuel i acc
        = gridLoop cosPi steps cols len factor fuel i acc := by
  intro fuel
  induction fuel with
  | zero => intro i acc; rfl
  | succ f ih =>
    intro i acc
    simp only [gridLoopR, gridLoop, id]
    rw [ih]
    rfl

/-- With `rnd = id` the rounded grid is the exact one. -/
theorem gridVisitsR_id (factor : ℚ) :
    ∀ (fuel : Nat) (i : ℚ), gridVisitsR id factor fuel i = gridVisits factor fuel i := by
  intro fuel
  induction fuel with
  | zero => intro i; rfl
  | succ f ih =>
    intro i
    simp only [gridVisitsR, gridVisits, id]
    rw [ih]

/-- With `rnd = id` the rounded palette builder is the exact one. -/
theorem interpolateColorsR_id (cosPi : ℚ → ℚ) (stops : List Color) (fuel : Nat) (N : ℚ) :
    interpolateColorsR id cosPi stops fuel N = interpolateColors cosPi stops fuel N := by
  rw [interpolateColorsR_eq, interpolateColors_eq, gridLoopR_id, resolveStepsR_id]
  rfl

/-- Beyond 1 no grid point is visited. -/
theorem gridVisitsR_exit (rnd : ℚ → ℚ) (factor : ℚ) (fuel : Nat) (i : ℚ) (hi : ¬ i ≤ 1) :
    gridVisitsR rnd factor fuel i = some [] := by
  cases fuel with
  | zero => simp [gridVisitsR, hi]
  | succ f => simp [gridVisitsR, hi]

/-- The rounded grid for `factor = 1/N`, `N > 0`, when every sum `k/N + 1/N` with
`k ≤ floor(N)` is computed without error: the loop started at `k/N` visits
`k/N, (k+1)/N, ...` up to `floor(N)/N` and then ends. -/
theorem gridVisitsR_from (rnd : ℚ → ℚ) (N : ℚ) (hN : 0 < N)
    (hexact : ∀ k : Nat, k ≤ ⌊N⌋₊ →
      rnd ((k : ℚ) * (1 / N) + 1 / N) = ((k + 1 : Nat) : ℚ) * (1 / N)) :
    ∀ (fuel k : Nat), ⌊N⌋₊ + 1 ≤ k + fuel → k ≤ ⌊N⌋₊ + 1 →
      gridVisitsR rnd (1 / N) fuel ((k : ℚ) * (1 / N))
        = some ((List.range' k (⌊N⌋₊ + 1 - k)).map (fun n : Nat => (n : ℚ) * (1 / N))) := by
  have hpast : ∀ k : Nat, ⌊N⌋₊ + 1 ≤ k → ¬ (k : ℚ) * (1 / N) ≤ 1 := by
    intro k hk hle
    have h1 : N < (⌊N⌋₊ : ℚ) + 1 := Nat.lt_floor_add_one N
    have h2 : ((⌊N⌋₊ + 1 : Nat) : ℚ) ≤ (k : ℚ) := by exact_mod_cast hk
    have h3 : (k : ℚ) ≤ N := by
      rw [mul_one_div, div_le_one hN] at hle
      exact hle
    push_cast at h2
    linarith
  intro fuel
  induction fuel with
  | zero =>
    intro k h1 h2
    have hsub : ⌊N⌋₊ + 1 - k = 0 := by omega
    rw [hsub, gridVisitsR_exit _ _ _ _ (hpast k (by omega))]
    rfl
  | succ f ih =>
    intro k h1 h2
    by_cases hk : k ≤ ⌊N⌋₊
    · have hkN : (k : ℚ) ≤ N := (Nat.le_floor_iff (le_of_lt hN)).mp hk
      have hi1 : (k : ℚ) * (1 / N) ≤ 1 := by
        rw [mul_one_div, div_le_one hN]
        exact hkN
      simp only [gridVisitsR, if_pos hi1]
      rw [hexact k hk, ih (k + 1) (by omega) (by omega), Option.map_some']
      have hlen : ⌊N⌋₊ + 1 - k = (⌊N⌋₊ + 1 - (k + 1)) + 1 := by omega
      rw [hlen, List.range'_succ, List.map_cons]
    · have hsub : ⌊N⌋₊ + 1 - k = 0 := by omega
      rw [hsub, gridVisitsR_exit _ _ _ _ (hpast k (by omega))]
      rfl

/-- The binary64 grid for a target count `N = 2^m`, `m ≤ 52`: every grid point `k/2^m`
is a `float64` value, so the loop visits exactly `k/2^m`, `k = 0..2^m`. -/
theorem gridVisitsR_pow (m : Nat) (hm : m ≤ 52) (fuel : Nat) (hfuel : 2 ^ m + 1 ≤ fuel) :
    gridVisitsR roundF64 (roundF64 (1 / (2 : ℚ) ^ m)) fuel 0
      = some ((List.range (2 ^ m + 1)).map (fun k : Nat => (k : ℚ) / 2 ^ m)) := by
  have hpow : (2 : Nat) ^ m ≤ 2 ^ 52 := Nat.pow_le_pow_right (by norm_num) hm
  have hN : (0 : ℚ) < (2 : ℚ) ^ m := by positivity
  have hfl : ⌊(2 : ℚ) ^ m⌋₊ = 2 ^ m := by
    have : ((2 : ℚ) ^ m) = ((2 ^ m : Nat) : ℚ) := by push_cast; rfl
    rw [this, Nat.floor_natCast]
  have hfac : roundF64 (1 / (2 : ℚ) ^ m) = 1 / (2 : ℚ) ^ m := by
    have := roundF64_div_pow 1 m (by norm_num)
    simpa using this
  have hexact : ∀ k : Nat, k ≤ ⌊(2 : ℚ) ^ m⌋₊ →
      roundF64 ((k : ℚ) * (1 / (2 : ℚ) ^ m) + 1 / (2 : ℚ) ^ m)
        = ((k + 1 : Nat) : ℚ) * (1 / (2 : ℚ) ^ m) := by
    intro k hk
    rw [hfl] at hk
    have e : (k : ℚ) * (1 / (2 : ℚ) ^ m) + 1 / (2 : ℚ) ^ m = ((k + 1 : Nat) : ℚ) / 2 ^ m := by
      push_cast
      ring
    rw [e, roundF64_div_pow (k + 1) m (by omega)]
    ring
  have h := gridVisitsR_from roundF64 ((2 : ℚ) ^ m) hN hexact fuel 0
    (by rw [hfl]; omega) (by omega)
  rw [Nat.cast_zero, zero_mul] at h
  rw [hfac, h, hfl, List.range_eq_range']
  simp only [Nat.sub_zero, mul_one_div]

/-- The number of brackets that hold a grid point, for non-decreasing steps that start
at 0 and end at 1. -/
theorem bracketsAt_length (steps : List ℚ) (hs : steps.Pairwise (· ≤ ·)) (hne : steps ≠ [])
    (h0 : steps.getD 0 0 = 0) (h1 : steps.getD (steps.length - 1) 0 = 1) (i : ℚ) :
    (bracketsAt steps steps.length i).length = if 0 ≤ i ∧ i < 1 then 1 else 0 := by
  have h := bracketCount_sorted steps hs hne i
  rw [h0, h1] at h
  rw [← h, bracketCount, bracketsAt, List.countP_eq_length_filter]

/-- The rounded resolved steps of a table of auto stops are non-decreasing, start at 0
and (for two stops or more) end at 1. -/
theorem resolveStepsR_shape (rnd : ℚ → ℚ)
    (hmono : ∀ a b : ℚ, 0 ≤ a → a ≤ b → rnd a ≤ rnd b)
    (h0 : rnd 0 = 0) (h1 : rnd 1 = 1) (h100 : rnd 100 = 100)
    (stops : List Color) (hne : 2 ≤ stops.length) (hauto : ∀ c ∈ stops, c.Step = 0) :
    (resolveStepsR rnd stops).length = stops.length ∧
    (resolveStepsR rnd stops).Pairwise (· ≤ ·) ∧
    (resolveStepsR rnd stops).getD 0 0 = 0 ∧
    (resolveStepsR rnd stops).getD (stops.length - 1) 0 = 1 := by
  have hk : ∀ k, k < stops.length →
      (resolveStepsR rnd stops)[k]?
        = some (if k = 0 then 0 else autoStepR rnd stops.length k) := by
    intro k hk
    rw [resolveStepsR_of_auto rnd stops hauto, List.getElem?_map, List.getElem?_range hk]
    rfl
  refine ⟨?_, ?_, ?_, ?_⟩
  · rw [resolveStepsR_of_auto rnd stops hauto]
    simp
  · rw [resolveStepsR_of_auto rnd stops hauto, List.pairwise_map]
    refine List.Pairwise.imp ?_ (List.pairwise_lt_range stops.length)
    intro a b hab
    by_cases ha : a = 0
    · have hb : b ≠ 0 := by omega
      rw [if_pos ha, if_neg hb]
      exact autoStepR_nonneg rnd hmono h0 _ _
    · have hb : b ≠ 0 := by omega
      rw [if_neg ha, if_neg hb]
      exact autoStepR_mono rnd hmono h0 _ (le_of_lt hab)
  · rw [List.getD_eq_getElem?_getD, hk 0 (by omega)]
    rfl
  · rw [List.getD_eq_getElem?_getD, hk _ (by omega), if_neg (by omega),
      autoStepR_last rnd h1 h100 _ (by omega)]
    rfl

/-- The length of a palette built from the default table with rounded operations: one
entry for each visited grid point in `[0, 1)`. -/
theorem interpolateColorsR_lsdcolors_length (rnd : ℚ → ℚ)
    (hmono : ∀ a b : ℚ, 0 ≤ a → a ≤ b → rnd a ≤ rnd b)
    (h0 : rnd 0 = 0) (h1 : rnd 1 = 1) (h100 : rnd 100 = 100)
    (cosPi : ℚ → ℚ) (N : ℚ) (fuel : Nat) (pts : List ℚ)
    (hpts : gridVisitsR rnd (rnd (1 / N)) fuel 0 = some pts) :
    ∃ palette, interpolateColorsR rnd cosPi lsdcolors fuel N = some palette ∧
      palette.length = pts.countP (fun i => decide (0 ≤ i ∧ i < 1)) := by
  refine ⟨_, interpolateColorsR_flatMap rnd cosPi lsdcolors N fuel pts hpts, ?_⟩
  obtain ⟨hlen, hs, hh, hl⟩ :=
    resolveStepsR_shape rnd hmono h0 h1 h100 lsdcolors (by decide) lsdcolors_auto
  have hne : resolveStepsR rnd lsdcolors ≠ [] := by
    intro h
    rw [h] at hlen
    exact absurd hlen (by decide)
  rw [← hlen] at hl ⊢
  generalize resolveStepsR rnd lsdcolors = steps at hs hh hl hne
  clear hpts
  induction pts with
  | nil => rfl
  | cons p rest ih =>
    rw [List.flatMap_cons, List.length_append, ih, List.length_map,
      bracketsAt_length steps hs hne hh hl, List.countP_cons]
    by_cases hp : 0 ≤ p ∧ p < 1
    · simp [hp]
      omega
    · simp [hp]

/-- Of the grid points `k/2^m`, `k = 0..2^m`, exactly `2^m` lie in `[0, 1)`. -/
theorem countP_grid_pow (m : Nat) :
    ((List.range (2 ^ m + 1)).map (fun k : Nat => (k : ℚ) / 2 ^ m)).countP
      (fun i => decide (0 ≤ i ∧ i < 1)) = 2 ^ m := by
  have hpos : (0 : ℚ) < (2 : ℚ) ^ m := by positivity
  rw [List.countP_map, List.range_succ, List.countP_append]
  have hall : (List.range (2 ^ m)).countP
      ((fun i : ℚ => decide (0 ≤ i ∧ i < 1)) ∘ (fun k : Nat => (k : ℚ) / 2 ^ m)) = 2 ^ m := by
    rw [List.countP_eq_length.mpr, List.length_range]
    intro k hk
    have hk' : k < 2 ^ m := List.mem_range.mp hk
    have hkq : (k : ℚ) < (2 : ℚ) ^ m := by exact_mod_cast hk'
    simp only [Function.comp, decide_eq_true_eq]
    exact ⟨by positivity, (div_lt_one hpos).mpr hkq⟩
  rw [hall]
  simp [div_self (ne_of_gt hpos)]

/-- Length of a binary64 palette built from the default table for a target count
`N = 2^m`, `m ≤ 52`: exactly `N` entries. -/
theorem interpolateColorsR_pow_length (cosPi : ℚ → ℚ) (m : Nat) (hm : m ≤ 52) (fuel : Nat)
    (hfuel : 2 ^ m + 1 ≤ fuel) :
    ∃ palette, interpolateColorsR roundF64 cosPi lsdcolors fuel ((2 : ℚ) ^ m) = some palette ∧
      palette.length = 2 ^ m := by
  obtain ⟨palette, hp, hlen⟩ := interpolateColorsR_lsdcolors_length roundF64
    (fun a b ha hab => roundF64_mono_nonneg ha hab) roundF64_zero
    (by simpa using roundF64_natCast 1 (by norm_num))
    (by simpa using roundF64_natCast 100 (by norm_num)) cosPi ((2 : ℚ) ^ m) fuel _
    (gridVisitsR_pow m hm fuel hfuel)
  exact ⟨palette, hp, by rw [hlen, countP_grid_pow]⟩

/-! ### Length of the palette -/

/-- Binary64 rounding leaves 1 unchanged. -/
theorem roundF64_one : roundF64 1 = 1 := by
  simpa using roundF64_natCast 1 (by norm_num)

/-- Binary64 rounding leaves 100 unchanged. -/
theorem roundF64_hundred : roundF64 100 = 100 := by
  simpa using roundF64_natCast 100 (by norm_num)

/-! ### A binary64 grid that stays below 1 -/

/-- Rounding at a midpoint above an odd integer goes up, to the even neighbour. -/
theorem roundHalfEven_tie_odd (t : ℚ) (f : Int) (h : t = (f : ℚ) + 1 / 2) (hodd : f % 2 = 1) :
    roundHalfEven t = f + 1 := by
  have hfl : ⌊t⌋ = f := by
    rw [Int.floor_eq_iff, h]
    constructor <;> linarith
  have h1 : ¬ (t - (f : ℚ) < 1 / 2) := by rw [h]; norm_num
  have h2 : ¬ ((1 : ℚ) / 2 < t - (f : ℚ)) := by rw [h]; norm_num
  have h3 : ¬ (f % 2 = 0) := by omega
  simp only [roundHalfEven, hfl, if_neg h1, if_neg h2, if_neg h3]

/-- One pass of the rounded grid at a grid point `i ≤ 1`. -/
theorem gridVisitsR_step (rnd : ℚ → ℚ) (factor : ℚ) (fuel : Nat) (i : ℚ) (hi : i ≤ 1) :
    gridVisitsR rnd factor (fuel + 1) i
      = (gridVisitsR rnd factor fuel (rnd (i + factor))).map (fun rest => i :: rest) := by
  simp [gridVisitsR, hi]

/-- The binary64 grid for the target count 6: the sum `2/6 + 1/6` rounds to `1/2`, the
sixth sum is `1 - 2^-53`, and so seven grid points are visited, all of them below 1. -/
theorem gridVisitsR_six :
    gridVisitsR roundF64 (roundF64 (1 / 6)) 8 0
      = some [0, 6004799503160661 / 2 ^ 55, 6004799503160661 / 2 ^ 54, 1 / 2,
          6004799503160661 / 2 ^ 53, 7505999378950826 / 2 ^ 53, 9007199254740991 / 2 ^ 53] := by
  have hf : roundF64 (1 / 6) = 6004799503160661 / 2 ^ 55 := by
    rw [roundF64_eval (1 / 6) (-55) 6004799503160661 (by norm_num) (by norm_num)
      (roundHalfEven_down _ _ (by norm_num) (by norm_num))]
    norm_num
  have s0 : roundF64 (0 + 6004799503160661 / 2 ^ 55) = 6004799503160661 / 2 ^ 55 := by
    rw [zero_add]
    exact roundF64_div_pow 6004799503160661 55 (by norm_num)
  have s1 : roundF64 (6004799503160661 / 2 ^ 55 + 6004799503160661 / 2 ^ 55)
      = 6004799503160661 / 2 ^ 54 := by
    have e : (6004799503160661 / 2 ^ 55 + 6004799503160661 / 2 ^ 55 : ℚ)
        = ((6004799503160661 : Nat) : ℚ) / 2 ^ 54 := by norm_num
    rw [e, roundF64_div_pow 6004799503160661 54 (by norm_num)]
    norm_num
  have s2 : roundF64 (6004799503160661 / 2 ^ 54 + 6004799503160661 / 2 ^ 55) = 1 / 2 := by
    rw [roundF64_eval (6004799503160661 / 2 ^ 54 + 6004799503160661 / 2 ^ 55) (-54)
      (9007199254740991 + 1) (by norm_num) (by norm_num)
      (roundHalfEven_tie_odd _ 9007199254740991 (by norm_num) (by decide))]
    norm_num
  have s3 : roundF64 (1 / 2 + 6004799503160661 / 2 ^ 55) = 6004799503160661 / 2 ^ 53 := by
    rw [roundF64_eval (1 / 2 + 6004799503160661 / 2 ^ 55) (-53) 6004799503160661
      (by norm_num) (by norm_num) (roundHalfEven_down _ _ (by norm_num) (by norm_num))]
    norm_num
  have s4 : roundF64 (6004799503160661 / 2 ^ 53 + 6004799503160661 / 2 ^ 55)
      = 7505999378950826 / 2 ^ 53 := by
    rw [roundF64_eval (6004799503160661 / 2 ^ 53 + 6004799503160661 / 2 ^ 55) (-53)
      7505999378950826 (by norm_num) (by norm_num)
      (roundHalfEven_down _ _ (by norm_num) (by norm_num))]
    norm_num
  have s5 : roundF64 (7505999378950826 / 2 ^ 53 + 6004799503160661 / 2 ^ 55)
      = 9007199254740991 / 2 ^ 53 := by
    rw [roundF64_eval (7505999378950826 / 2 ^ 53 + 6004799503160661 / 2 ^ 55) (-53)
      9007199254740991 (by norm_num) (by norm_num)
      (roundHalfEven_down _ _ (by norm_num) (by norm_num))]
    norm_num
  have s6 : roundF64 (9007199254740991 / 2 ^ 53 + 6004799503160661 / 2 ^ 55)
      = 5254199565265578 / 2 ^ 52 := by
    rw [roundF64_eval (9007199254740991 / 2 ^ 53 + 6004799503160661 / 2 ^ 55) (-52)
      5254199565265578 (by norm_num) (by norm_num)
      (roundHalfEven_down _ _ (by norm_num) (by norm_num))]
    norm_num
  rw [hf, gridVisitsR_step _ _ _ _ (by norm_num), s0,
    gridVisitsR_step _ _ _ _ (by norm_num), s1,
    gridVisitsR_step _ _ _ _ (by norm_num), s2,
    gridVisitsR_step _ _ _ _ (by norm_num), s3,
    gridVisitsR_step _ _ _ _ (by norm_num), s4,
    gridVisitsR_step _ _ _ _ (by norm_num), s5,
    gridVisitsR_step _ _ _ _ (by norm_num), s6,
    gridVisitsR_exit _ _ _ _ (by norm_num)]
  rfl

/-- Length of the binary64 palette built from the default table for the target count 6:
seven entries, one for each of the seven grid points below 1. -/
theorem interpolateColorsR_six_length (cosPi : ℚ → ℚ) :
    ∃ palette, interpolateColorsR roundF64 cosPi lsdcolors 8 6 = some palette ∧
      palette.length = 7 := by
  obtain ⟨palette, hp, hlen⟩ := interpolateColorsR_lsdcolors_length roundF64
    (fun a b ha hab => roundF64_mono_nonneg ha hab) roundF64_zero roundF64_one
    roundF64_hundred cosPi 6 8 _ gridVisitsR_six
  refine ⟨palette, hp, ?_⟩
  rw [hlen]
  simp only [List.countP_cons, List.countP_nil]
  norm_num

/-- C4 (amended): for the default 16-stop table the palette returned by
`interpolateColors(N)` has one entry for each visited grid point `i` with `0 ≤ i < 1`,
whatever rounding the `float64` operations carry (the grid point 1, when it is visited,
lies in no bracket `steps[j] ≤ i < steps[j+1]`).  Under exact arithmetic for the grid
`i = 0, factor, 2*factor, ... ≤ 1` that is `floor(N) + 1` entries for every target
count `N > 0` that is not an integer.  For `N = 2^m`, `m ≤ 52`, where the binary64 grid
is exact, the palette has exactly `N` entries; for other integers the binary64 count
depends on the rounding of the sums, and `N = 6` gives 7 entries. -/
theorem interpolateColors_length (cosPi : ℚ → ℚ) :
    (∀ (N : ℚ) (fuel : Nat), 0 < N → (⌊N⌋₊ : ℚ) ≠ N → ⌊N⌋₊ + 1 ≤ fuel →
      ∃ palette, interpolateColors cosPi lsdcolors fuel N = some palette ∧
        palette.length = ⌊N⌋₊ + 1) ∧
    (∀ (rnd : ℚ → ℚ), (∀ a b : ℚ, 0 ≤ a → a ≤ b → rnd a ≤ rnd b) →
      rnd 0 = 0 → rnd 1 = 1 → rnd 100 = 100 →
      ∀ (N : ℚ) (fuel : Nat) (pts : List ℚ),
        gridVisitsR rnd (rnd (1 / N)) fuel 0 = some pts →
        ∃ palette, interpolateColorsR rnd cosPi lsdcolors fuel N = some palette ∧
          palette.length = pts.countP (fun i => decide (0 ≤ i ∧ i < 1))) ∧
    (∀ (m fuel : Nat), m ≤ 52 → 2 ^ m + 1 ≤ fuel →
      gridVisitsR roundF64 (roundF64 (1 / (2 : ℚ) ^ m)) fuel 0
        = some ((List.range (2 ^ m + 1)).map (fun k : Nat => (k : ℚ) / 2 ^ m)) ∧
      ∃ palette,
        interpolateColorsR roundF64 cosPi lsdcolors fuel ((2 : ℚ) ^ m) = some palette ∧
          palette.length = 2 ^ m) ∧
    (∃ palette, interpolateColorsR roundF64 cosPi lsdcolors 8 6 = some palette ∧
      palette.length = 7) := by
  refine ⟨?_, ?_, ?_, interpolateColorsR_six_length cosPi⟩
  · intro N fuel hN hfrac hfuel
    obtain ⟨palette, hp, hlen⟩ := interpolateColors_lsdcolors_length cosPi N hN fuel hfuel
    refine ⟨palette, hp, ?_⟩
    rw [hlen]
    apply le_antisymm (Nat.ceil_le_floor_add_one N)
    have hlt : (⌊N⌋₊ : ℚ) < N := lt_of_le_of_ne (Nat.floor_le (le_of_lt hN)) hfrac
    exact Nat.succ_le_of_lt (Nat.lt_ceil.mpr hlt)
  · intro rnd hmono h0 h1 h100 N fuel pts hpts
    exact interpolateColorsR_lsdcolors_length rnd hmono h0 h1 h100 cosPi N fuel pts hpts
  · intro m fuel hm hfuel
    exact ⟨gridVisitsR_pow m hm fuel hfuel, interpolateColorsR_pow_length cosPi m hm fuel hfuel⟩

/-- Witness for `interpolateColors_length`: `N = 7/2` under exact arithmetic gives
`3 + 1 = 4` entries, and `N = 4 = 2^2` in binary64 visits `0, 1/4, 1/2, 3/4, 1` and gives
4 entries. -/
theorem interpolateColors_length_witness :
    (0 : ℚ) < 7 / 2 ∧ ((⌊(7 / 2 : ℚ)⌋₊ : ℚ) ≠ 7 / 2) ∧ ⌊(7 / 2 : ℚ)⌋₊ + 1 = 4 ∧
    (∃ palette, interpolateColors bhaskaraCosPi lsdcolors 4 (7 / 2) = some palette ∧
      palette.length = ⌊(7 / 2 : ℚ)⌋₊ + 1) ∧
    gridVisitsR roundF64 (roundF64 (1 / (2 : ℚ) ^ 2)) 5 0
      = some ((List.range (2 ^ 2 + 1)).map (fun k : Nat => (k : ℚ) / 2 ^ 2)) ∧
    (∃ palette,
      interpolateColorsR roundF64 bhaskaraCosPi lsdcolors 5 ((2 : ℚ) ^ 2) = some palette ∧
        palette.length = 2 ^ 2) := by
  have hfl : ⌊(7 / 2 : ℚ)⌋₊ = 3 := by
    rw [Nat.floor_eq_iff (by norm_num)]
    norm_num
  have hne : ((⌊(7 / 2 : ℚ)⌋₊ : ℚ) ≠ 7 / 2) := by
    rw [hfl]
    norm_num
  refine ⟨by norm_num, hne, by rw [hfl], ?_, ?_, ?_⟩
  · exact (interpolateColors_length bhaskaraCosPi).1 (7 / 2) 4 (by norm_num) hne
      (by rw [hfl])
  · exact ((interpolateColors_length bhaskaraCosPi).2.2.1 2 5 (by norm_num) (by norm_num)).1
  · exact ((interpolateColors_length bhaskaraCosPi).2.2.1 2 5 (by norm_num) (by norm_num)).2

/-! ### Palette entries with rounded operations -/

/-- The packed value of a color with 8-bit channels fits in 32 bits. -/
theorem rgbaToUint_lt (c : RGBA) (hc : c.WellFormed) : rgbaToUint c < 2 ^ 32 := by
  obtain ⟨_, _, _, hA⟩ := hc
  have ha : (c.A ||| c.A <<< 8) / 0xff < 2 ^ 32 := by
    have h1 : c.A ||| c.A <<< 8 < 2 ^ 16 := by
      apply Nat.or_lt_two_pow
      · omega
      · rw [Nat.shiftLeft_eq]
        omega
    exact lt_of_le_of_lt (Nat.div_le_self _ _) (by omega)
  simp only [rgbaToUint, RGBA.RGBA]
  exact Nat.or_lt_two_pow (Nat.or_lt_two_pow (Nat.or_lt_two_pow (Nat.mod_lt _ (by norm_num))
    (Nat.mod_lt _ (by norm_num))) (Nat.mod_lt _ (by norm_num))) ha

/-- Every packed color of a table of 8-bit colors fits in 32 bits. -/
theorem resolveCols_lt (stops : List Color) (hwf : ∀ c ∈ stops, c.Color.WellFormed) (j : Nat) :
    (resolveCols stops).getD j 0 < 2 ^ 32 := by
  rw [resolveCols_eq, List.getD_eq_getElem?_getD, List.getElem?_map]
  cases h : stops[j]? with
  | none => simp
  | some c =>
    simp only [Option.map_some', Option.getD_some]
    exact rgbaToUint_lt _ (hwf c (List.getElem?_mem h))

/-- At the lower end of a bracket the rounded blend is the packed color of the higher
stop. -/
theorem blendEntryR_lower (rnd : ℚ → ℚ) (cosPi : ℚ → ℚ) (h0 : rnd 0 = 0) (h1 : rnd 1 = 1)
    (hc0 : cosPi 0 = 1) (steps : List ℚ) (cols : List Nat) (j : Nat)
    (hhigh : rnd (cols.getD (j + 1) 0 : ℚ) = (cols.getD (j + 1) 0 : ℚ)) :
    blendEntryR rnd cosPi steps cols (steps.getD j 0) j
      = uint32ToRgba (cols.getD (j + 1) 0 % 2 ^ 32) := by
  simp only [blendEntryR, sub_self, h0, zero_div, hc0, sub_zero, h1, mul_one, mul_zero,
    add_zero, hhigh]
  rw [toUint32_natCast_mod]

/-- C12: for every rounding `rnd` of the `float64` operations, every grid point `i`
visited by `interpolateColors` and every `j` with `steps[j] ≤ i < steps[j+1]`, the
palette entry appended is the unpacking (with alpha forced to 255) of the truncation to
`uint32` of `high*(1-mu2) + low*mu2`, where `high` is the packed color of stop `j+1`,
`low` is the packed color of stop `j`, `mu = (i - steps[j])/(steps[j+1] - steps[j])` and
`mu2 = (1 - cos(mu π))/2`: the inner loop at `i` appends exactly these entries, and
the palette is their list over the visited grid points, in order.  In particular at
`i = steps[j]` (`mu = 0`, with `cos 0 = 1` and 8-bit stop colors) the entry is the
unpacked packed color of stop `j+1`. -/
theorem interpolateColors_entries (rnd : ℚ → ℚ) (cosPi : ℚ → ℚ) (stops : List Color) :
    (∀ (i : ℚ) (acc : List Nat),
      (bracketLoopR rnd cosPi (resolveStepsR rnd stops) (resolveCols stops) stops.length i
          acc).map uint32ToRgba
        = acc.map uint32ToRgba
          ++ (bracketsAt (resolveStepsR rnd stops) stops.length i).map
              (blendEntryR rnd cosPi (resolveStepsR rnd stops) (resolveCols stops) i)) ∧
    (∀ (i : ℚ) (j : Nat), j ∈ bracketsAt (resolveStepsR rnd stops) stops.length i ↔
      j < stops.length - 1 ∧ (resolveStepsR rnd stops).getD j 0 ≤ i ∧
        i < (resolveStepsR rnd stops).getD (j + 1) 0) ∧
    (∀ (N : ℚ) (fuel : Nat) (pts : List ℚ),
      gridVisitsR rnd (rnd (1 / N)) fuel 0 = some pts →
      interpolateColorsR rnd cosPi stops fuel N
        = some (pts.flatMap (fun i =>
            (bracketsAt (resolveStepsR rnd stops) stops.length i).map
              (blendEntryR rnd cosPi (resolveStepsR rnd stops) (resolveCols stops) i)))) ∧
    (rnd 0 = 0 → rnd 1 = 1 → (∀ n : Nat, n < 2 ^ 32 → rnd (n : ℚ) = (n : ℚ)) → cosPi 0 = 1 →
      (∀ c ∈ stops, c.Color.WellFormed) →
      ∀ j : Nat, j ∈ bracketsAt (resolveStepsR rnd stops) stops.length
          ((resolveStepsR rnd stops).getD j 0) →
        blendEntryR rnd cosPi (resolveStepsR rnd stops) (resolveCols stops)
            ((resolveStepsR rnd stops).getD j 0) j
          = uint32ToRgba ((resolveCols stops).getD (j + 1) 0)) ∧
    (∀ (i : ℚ) (j : Nat),
      blendEntryR id cosPi (resolveStepsR id stops) (resolveCols stops) i j
        = blendEntry cosPi (resolveSteps stops) (resolveCols stops) i j) ∧
    (∀ (N : ℚ) (fuel : Nat),
      interpolateColorsR id cosPi stops fuel N = interpolateColors cosPi stops fuel N) := by
  refine ⟨?_, ?_, ?_, ?_, ?_, ?_⟩
  · intro i acc
    rw [bracketLoopR_eq, List.map_append, List.map_map]
    rfl
  · intro i j
    simp [bracketsAt]
  · intro N fuel pts hpts
    exact interpolateColorsR_flatMap rnd cosPi stops N fuel pts hpts
  · intro h0 h1 hnat hc0 hwf j _
    have hlt := resolveCols_lt stops hwf (j + 1)
    rw [blendEntryR_lower rnd cosPi h0 h1 hc0 _ _ j (hnat _ hlt), Nat.mod_eq_of_lt hlt]
  · intro i j
    rw [resolveStepsR_id]
    rfl
  · intro N fuel
    exact interpolateColorsR_id cosPi stops fuel N

/-- The binary64 resolved steps of the two-stop table. -/
theorem resolveStepsR_blackWhite : resolveStepsR roundF64 blackWhite = [0, 1] := by
  have hauto : ∀ c ∈ blackWhite, c.Step = 0 := by
    intro c hc
    simp only [blackWhite, List.mem_cons, List.mem_singleton, List.not_mem_nil, or_false] at hc
    rcases hc with h | h <;> rw [h]
  have h := autoStepR_last roundF64 roundF64_one roundF64_hundred 2 (by norm_num)
  rw [resolveStepsR_of_auto roundF64 blackWhite hauto]
  simp only [blackWhite, List.length_cons, List.length_nil]
  simp only [List.range, List.range.loop, List.map_cons, List.map_nil]
  simp [h]

/-- Witness for `interpolateColors_entries`: the two-stop table in binary64 with
`N = 4`, where the visited grid points are `0, 1/4, 1/2, 3/4, 1`; at the grid point
`0 = steps[0]` the entry is the unpacked packed color of the second stop. -/
theorem interpolateColors_entries_witness :
    gridVisitsR roundF64 (roundF64 (1 / (2 : ℚ) ^ 2)) 5 0
      = some ((List.range (2 ^ 2 + 1)).map (fun k : Nat => (k : ℚ) / 2 ^ 2)) ∧
    interpolateColorsR roundF64 bhaskaraCosPi blackWhite 5 ((2 : ℚ) ^ 2)
      = some (((List.range (2 ^ 2 + 1)).map (fun k : Nat => (k : ℚ) / 2 ^ 2)).flatMap (fun i =>
          (bracketsAt (resolveStepsR roundF64 blackWhite) blackWhite.length i).map
            (blendEntryR roundF64 bhaskaraCosPi (resolveStepsR roundF64 blackWhite)
              (resolveCols blackWhite) i))) ∧
    0 ∈ bracketsAt (resolveStepsR roundF64 blackWhite) blackWhite.length
        ((resolveStepsR roundF64 blackWhite).getD 0 0) ∧
    blendEntryR roundF64 bhaskaraCosPi (resolveStepsR roundF64 blackWhite)
        (resolveCols blackWhite) ((resolveStepsR roundF64 blackWhite).getD 0 0) 0
      = uint32ToRgba ((resolveCols blackWhite).getD (0 + 1) 0) := by
  have hv := gridVisitsR_pow 2 (by norm_num) 5 (by norm_num)
  have hmem : 0 ∈ bracketsAt (resolveStepsR roundF64 blackWhite) blackWhite.length
      ((resolveStepsR roundF64 blackWhite).getD 0 0) := by
    rw [resolveStepsR_blackWhite]
    simp [bracketsAt, blackWhite]
  refine ⟨hv, ?_, hmem, ?_⟩
  · exact (interpolateColors_entries roundF64 bhaskaraCosPi blackWhite).2.2.1 _ 5 _ hv
  · exact (interpolateColors_entries roundF64 bhaskaraCosPi blackWhite).2.2.2.1 roundF64_zero
      roundF64_one (fun n hn => roundF64_natCast n (by omega))
      (by norm_num [bhaskaraCosPi])
      (by
        intro c hc
        simp only [blackWhite, List.mem_cons, List.mem_singleton, List.not_mem_nil,
          or_false] at hc
        rcases hc with h | h <;> rw [h] <;> simp [RGBA.WellFormed])
      0 hmem

/-! ### The window with rounded operations -/

end Lambdabrot
